import Mathlib

/-
Verification of the Murmur mesh-network simulator core.

Shallow embedding of the packet envelope, flooding routing strategy, node
state machine, simulation engine, link graph search, radio propagation
model and mesh addressing, translated from the TypeScript sources, with
theorems checking the specification claims against them.

Conventions of the embedding:
  - JS numbers holding integral counters (hopLimit, hopCount, counters)
    are Int or Nat; byte stores through Uint8Array take the value modulo
    256 exactly as the ToUint8 conversion does.
  - The header timestamp is represented by the 64-bit IEEE-754 pattern of
    the JS number (a Nat below 2 to the 64): DataView.setFloat64 and
    getFloat64 store and load exactly this pattern, so the wire format is
    captured bit for bit.
  - Real-valued RF math (Math.log10) is embedded over the reals.
-/

/-- Packet header, from the PacketHeader interface of core/packet.ts. -/
structure PacketHeader where
  id : String
  source : String
  destination : String
  hopLimit : Int
  hopCount : Int
  timestamp : Nat
  deriving Repr, DecidableEq

/-- Packet metadata, from the PacketMeta interface of core/packet.ts.
The optional forwardDelay field is read (only) by the graph-enabled engine
of core/addressing.ts; no code of the repository ever sets it. -/
structure PacketMeta where
  path : List String
  createdAt : Nat
  deliveredAt : Option Nat
  forwardDelay : Option Nat
  deriving Repr, DecidableEq

/-- Packet envelope, from the Packet interface of core/packet.ts; the
payload is the byte list of the Uint8Array. -/
structure Packet where
  header : PacketHeader
  payload : List Nat
  meta : PacketMeta
  deriving Repr, DecidableEq

/-- createPacket of core/packet.ts.  generatePacketId mixes the wall clock
and Math.random, and the timestamp is Date.now(); both are impure inputs
and enter the embedding as the explicit arguments pid and now. -/
def createPacket (pid source destination : String) (payload : List Nat)
    (hopLimit : Int) (now : Nat) : Packet :=
  { header :=
      { id := pid
        source := source
        destination := destination
        hopLimit := hopLimit
        hopCount := 0
        timestamp := now }
    payload := payload
    meta :=
      { path := [source]
        createdAt := now
        deliveredAt := none
        forwardDelay := none } }

/-- cloneForForward of core/packet.ts: null when the hop limit is
exhausted, otherwise a copy with hopLimit decremented, hopCount
incremented and the forwarder appended to the path. -/
def cloneForForward (packet : Packet) (forwarderId : String) : Option Packet :=
  if packet.header.hopLimit ≤ 0 then
    none
  else
    some
      { header :=
          { packet.header with
            hopLimit := packet.header.hopLimit - 1
            hopCount := packet.header.hopCount + 1 }
        payload := packet.payload
        meta :=
          { packet.meta with
            path := packet.meta.path ++ [forwarderId] } }

/-- Claim C1: for hopLimit at least 1, cloneForForward returns a packet
with hopLimit decremented, hopCount incremented, the same id and payload,
and the path extended by the forwarder; for hopLimit at most 0 it returns
nothing. -/
theorem cloneForForward_spec (p : Packet) (f : String) :
    (1 ≤ p.header.hopLimit →
      ∃ q, cloneForForward p f = some q ∧
        q.header.hopLimit = p.header.hopLimit - 1 ∧
        q.header.hopCount = p.header.hopCount + 1 ∧
        q.header.id = p.header.id ∧
        q.payload = p.payload ∧
        q.meta.path = p.meta.path ++ [f]) ∧
    (p.header.hopLimit ≤ 0 → cloneForForward p f = none) := by
  constructor
  · intro h
    have hclone : cloneForForward p f =
        some
          { header :=
              { p.header with
                hopLimit := p.header.hopLimit - 1
                hopCount := p.header.hopCount + 1 }
            payload := p.payload
            meta := { p.meta with path := p.meta.path ++ [f] } } := by
      simp only [cloneForForward, if_neg (by omega : ¬ p.header.hopLimit ≤ 0)]
    exact ⟨_, hclone, rfl, rfl, rfl, rfl, rfl⟩
  · intro h
    simp only [cloneForForward, if_pos h]

/-- Concrete instantiation of cloneForForward_spec at hop limits 2 and 0. -/
theorem cloneForForward_spec_witness :
    (∃ q, cloneForForward (createPacket "pkt" "a" "b" [1] 2 5) "fwd" = some q ∧
        q.header.hopLimit = 1 ∧
        q.header.hopCount = 1 ∧
        q.header.id = "pkt" ∧
        q.payload = [1] ∧
        q.meta.path = ["a", "fwd"]) ∧
    cloneForForward (createPacket "pkt" "a" "b" [1] 0 5) "fwd" = none := by
  constructor
  · obtain ⟨q, h1, h2, h3, h4, h5, h6⟩ :=
      (cloneForForward_spec (createPacket "pkt" "a" "b" [1] 2 5) "fwd").1 (by decide)
    exact ⟨q, h1, h2, h3, h4, h5, h6⟩
  · exact (cloneForForward_spec (createPacket "pkt" "a" "b" [1] 0 5) "fwd").2 (by decide)

/-- Routing decision action tag, from routing/types.ts. -/
inductive RAction where
  | deliver
  | forward
  | drop
  deriving Repr, DecidableEq

/-- RoutingDecision of routing/types.ts; the optional delay and
modifiedPacket fields are set only by the sites that mention them. -/
structure RoutingDecision where
  action : RAction
  reason : String
  delay : Option Nat
  modifiedPacket : Option Packet
  deriving Repr, DecidableEq

/-- FloodingConfig of routing/flooding.ts. -/
structure FloodingConfig where
  defaultHopLimit : Int
  rebroadcastDelay : Nat
  duplicateWindow : Nat
  deriving Repr, DecidableEq

/-- DEFAULT_CONFIG of routing/flooding.ts. -/
def defaultFloodingConfig : FloodingConfig :=
  { defaultHopLimit := 7
    rebroadcastDelay := 100
    duplicateWindow := 300000 }

/-- FloodingStrategy.onReceive of routing/flooding.ts, branch for branch.
The rssi argument is unused by the source as well. -/
def floodingOnReceive (cfg : FloodingConfig) (nodeId : String) (packet : Packet)
    (_rssi : Int) : RoutingDecision :=
  let header := packet.header
  let isForThisNode := header.destination = nodeId ∨ header.destination = "broadcast"
  let shouldForward :=
    (header.destination = "broadcast" ∨ header.destination ≠ nodeId) ∧
      header.hopLimit > 0
  if isForThisNode ∧ header.destination ≠ "broadcast" then
    { action := .deliver
      reason := "Packet addressed to this node"
      delay := none
      modifiedPacket := none }
  else if header.destination = "broadcast" then
    if shouldForward then
      match cloneForForward packet nodeId with
      | none =>
        { action := .deliver
          reason := "Broadcast packet (hop limit exhausted)"
          delay := none
          modifiedPacket := none }
      | some forwardedPacket =>
        { action := .forward
          reason := "Rebroadcasting packet"
          delay := some cfg.rebroadcastDelay
          modifiedPacket := some forwardedPacket }
    else
      { action := .deliver
        reason := "Broadcast packet received"
        delay := none
        modifiedPacket := none }
  else if shouldForward then
    match cloneForForward packet nodeId with
    | none =>
      { action := .drop
        reason := "Hop limit exhausted"
        delay := none
        modifiedPacket := none }
    | some forwardedPacket =>
      { action := .forward
        reason := "Forwarding to destination"
        delay := some cfg.rebroadcastDelay
        modifiedPacket := some forwardedPacket }
  else if header.hopLimit ≤ 0 then
    { action := .drop
      reason := "Hop limit exhausted"
      delay := none
      modifiedPacket := none }
  else
    { action := .drop
      reason := "Not for this node and cannot forward"
      delay := none
      modifiedPacket := none }

/-- FloodingStrategy.onSend of routing/flooding.ts. -/
def floodingOnSend (cfg : FloodingConfig) (nodeId destination : String)
    (payload : List Nat) (pid : String) (now : Nat) : Packet :=
  createPacket pid nodeId destination payload cfg.defaultHopLimit now

/-- NodeStats of core/node.ts. -/
structure NodeStats where
  packetsReceived : Nat
  packetsSent : Nat
  packetsDropped : Nat
  packetsForwarded : Nat
  duplicatesIgnored : Nat
  deriving Repr, DecidableEq

/-- The all-zero counters a fresh or reset node carries. -/
def zeroStats : NodeStats :=
  { packetsReceived := 0
    packetsSent := 0
    packetsDropped := 0
    packetsForwarded := 0
    duplicatesIgnored := 0 }

/-- The mutable state of a VirtualNode of core/node.ts.  seenPacketIds is
a JS Set, i.e. a duplicate-free list in insertion order.  The position,
address and routing table play no part in the claims under check and are
omitted; the routing strategy bound by the callers of the engine is the
flooding strategy, so receive and send are embedded with it below. -/
structure NodeState where
  id : String
  seenPacketIds : List String
  inbox : List Packet
  outbox : List Packet
  stats : NodeStats
  deriving Repr, DecidableEq

/-- A freshly constructed VirtualNode. -/
def initNode (id : String) : NodeState :=
  { id := id
    seenPacketIds := []
    inbox := []
    outbox := []
    stats := zeroStats }

/-- The size-based cleanup inside VirtualNode.receive: once the seen set
exceeds 1000 entries, the oldest half (by insertion order) is removed. -/
def trimSeen (seen : List String) : List String :=
  if seen.length > 1000 then seen.drop (seen.length / 2) else seen

/-- VirtualNode.receive of core/node.ts with the flooding strategy bound:
count the receipt; ignore duplicates; otherwise mark seen, trim the seen
set, append to the inbox and branch on the routing decision. -/
def nodeReceive (cfg : FloodingConfig) (n : NodeState) (packet : Packet)
    (rssi : Int) : NodeState :=
  let n := { n with stats := { n.stats with packetsReceived := n.stats.packetsReceived + 1 } }
  if packet.header.id ∈ n.seenPacketIds then
    { n with stats := { n.stats with duplicatesIgnored := n.stats.duplicatesIgnored + 1 } }
  else
    let n := { n with seenPacketIds := trimSeen (n.seenPacketIds ++ [packet.header.id]) }
    let n := { n with inbox := n.inbox ++ [packet] }
    let decision := floodingOnReceive cfg n.id packet rssi
    match decision.action with
    | .deliver => n
    | .forward =>
      let forwardPacket := decision.modifiedPacket.getD packet
      { n with
        outbox := n.outbox ++ [forwardPacket]
        stats := { n.stats with packetsForwarded := n.stats.packetsForwarded + 1 } }
    | .drop =>
      { n with stats := { n.stats with packetsDropped := n.stats.packetsDropped + 1 } }

/-- VirtualNode.send of core/node.ts with the flooding strategy bound: the
strategy constructs the packet, the id is marked seen, the packet queued
on the outbox and the sent counter incremented. -/
def nodeSend (cfg : FloodingConfig) (n : NodeState) (destination : String)
    (payload : List Nat) (pid : String) (now : Nat) : NodeState :=
  let packet := floodingOnSend cfg n.id destination payload pid now
  { n with
    seenPacketIds := n.seenPacketIds ++ [packet.header.id]
    outbox := n.outbox ++ [packet]
    stats := { n.stats with packetsSent := n.stats.packetsSent + 1 } }

/-- VirtualNode.reset of core/node.ts. -/
def nodeReset (n : NodeState) : NodeState :=
  { id := n.id
    seenPacketIds := []
    inbox := []
    outbox := []
    stats := zeroStats }

/-- The forwarded clone built inside cloneForForward when the hop limit is
positive (helper for reasoning about the flooding decisions). -/
def forwardClone (packet : Packet) (forwarderId : String) : Packet :=
  { header :=
      { packet.header with
        hopLimit := packet.header.hopLimit - 1
        hopCount := packet.header.hopCount + 1 }
    payload := packet.payload
    meta := { packet.meta with path := packet.meta.path ++ [forwarderId] } }

theorem cloneForForward_pos {packet : Packet} (f : String)
    (h : 0 < packet.header.hopLimit) :
    cloneForForward packet f = some (forwardClone packet f) := by
  simp only [cloneForForward, forwardClone, if_neg (by omega : ¬ packet.header.hopLimit ≤ 0)]

/-- Claim C2 (amended: the drop reason string of the source is
"Hop limit exhausted"): for a node with the flooding strategy and a
non-duplicate packet, a broadcast packet is kept in the inbox, never
counted as dropped, and, when its hop limit is positive, forwarded with
the hop limit decremented and the configured rebroadcast delay; a packet
for another node with hop limit 0 yields a drop decision with reason
"Hop limit exhausted"; a packet addressed to this node delivers. -/
theorem flooding_onReceive_decisions (cfg : FloodingConfig) (n : NodeState)
    (p : Packet) (rssi : Int) :
    (p.header.destination = "broadcast" → p.header.id ∉ n.seenPacketIds →
      p ∈ (nodeReceive cfg n p rssi).inbox ∧
      (nodeReceive cfg n p rssi).stats.packetsDropped = n.stats.packetsDropped ∧
      (floodingOnReceive cfg n.id p rssi).action ≠ .drop ∧
      (0 < p.header.hopLimit →
        floodingOnReceive cfg n.id p rssi =
          { action := .forward
            reason := "Rebroadcasting packet"
            delay := some cfg.rebroadcastDelay
            modifiedPacket := some (forwardClone p n.id) } ∧
        (forwardClone p n.id).header.hopLimit = p.header.hopLimit - 1 ∧
        (nodeReceive cfg n p rssi).outbox = n.outbox ++ [forwardClone p n.id])) ∧
    (p.header.destination ≠ "broadcast" → p.header.destination ≠ n.id →
      p.header.hopLimit = 0 →
      floodingOnReceive cfg n.id p rssi =
        { action := .drop
          reason := "Hop limit exhausted"
          delay := none
          modifiedPacket := none }) ∧
    (p.header.destination = n.id → p.header.destination ≠ "broadcast" →
      (floodingOnReceive cfg n.id p rssi).action = .deliver) := by
  refine ⟨?_, ?_, ?_⟩
  · intro hb hmem
    have hdecision :
        floodingOnReceive cfg n.id p rssi =
          if 0 < p.header.hopLimit then
            { action := .forward
              reason := "Rebroadcasting packet"
              delay := some cfg.rebroadcastDelay
              modifiedPacket := some (forwardClone p n.id) }
          else
            { action := .deliver
              reason := "Broadcast packet received"
              delay := none
              modifiedPacket := none } := by
      by_cases hpos : 0 < p.header.hopLimit
      · rw [if_pos hpos]
        simp only [floodingOnReceive, hb, cloneForForward_pos _ hpos]
        simp [hpos]
      · rw [if_neg hpos]
        simp only [floodingOnReceive, hb]
        simp [hpos]
    have hrecv :
        nodeReceive cfg n p rssi =
          let n1 : NodeState :=
            { n with
              stats := { n.stats with packetsReceived := n.stats.packetsReceived + 1 }
              seenPacketIds := trimSeen (n.seenPacketIds ++ [p.header.id])
              inbox := n.inbox ++ [p] }
          if 0 < p.header.hopLimit then
            { n1 with
              outbox := n1.outbox ++ [forwardClone p n.id]
              stats := { n1.stats with packetsForwarded := n1.stats.packetsForwarded + 1 } }
          else n1 := by
      by_cases hpos : 0 < p.header.hopLimit
      · simp only [nodeReceive, if_neg hmem, hdecision, if_pos hpos]
        rfl
      · simp only [nodeReceive, if_neg hmem, hdecision, if_neg hpos]
    refine ⟨?_, ?_, ?_, ?_⟩
    · rw [hrecv]
      by_cases hpos : 0 < p.header.hopLimit <;>
        simp [hpos, List.mem_append]
    · rw [hrecv]
      by_cases hpos : 0 < p.header.hopLimit <;> simp [hpos]
    · rw [hdecision]
      by_cases hpos : 0 < p.header.hopLimit <;> simp [hpos]
    · intro hpos
      refine ⟨by rw [hdecision, if_pos hpos], rfl, ?_⟩
      rw [hrecv]
      simp [hpos]
  · intro hnb hnid hzero
    simp only [floodingOnReceive]
    rw [if_neg (by simp [hnb, hnid]), if_neg hnb,
      if_neg (by simp only [not_and]; intro _; omega),
      if_pos (by omega)]
  · intro hid hnb
    simp only [floodingOnReceive]
    rw [if_pos ⟨Or.inl hid, hnb⟩]

/-- Counterexample to claim C2 as stated: at a concrete node and packet
for another node with hop limit 0, the decision is a drop whose reason
string is "Hop limit exhausted", not the claimed "hop limit exhausted". -/
theorem flooding_reason_counterexample :
    (floodingOnReceive defaultFloodingConfig "n1"
        (createPacket "pkt" "src" "n2" [] 0 0) 0).action = .drop ∧
    (floodingOnReceive defaultFloodingConfig "n1"
        (createPacket "pkt" "src" "n2" [] 0 0) 0).reason ≠ "hop limit exhausted" := by
  decide

/-- Concrete instantiation of flooding_onReceive_decisions: a broadcast
packet with hop limit 2 at a fresh node, a hop-limit-0 packet for another
node, and a packet addressed to the node itself. -/
theorem flooding_onReceive_decisions_witness :
    (let n := initNode "n1"
     let p := createPacket "pkt" "src" "broadcast" [7] 2 0
     p ∈ (nodeReceive defaultFloodingConfig n p 0).inbox ∧
       (nodeReceive defaultFloodingConfig n p 0).stats.packetsDropped =
         n.stats.packetsDropped ∧
       (floodingOnReceive defaultFloodingConfig n.id p 0).action ≠ .drop ∧
       (0 < p.header.hopLimit →
         floodingOnReceive defaultFloodingConfig n.id p 0 =
           { action := .forward
             reason := "Rebroadcasting packet"
             delay := some defaultFloodingConfig.rebroadcastDelay
             modifiedPacket := some (forwardClone p n.id) } ∧
         (forwardClone p n.id).header.hopLimit = p.header.hopLimit - 1 ∧
         (nodeReceive defaultFloodingConfig n p 0).outbox =
           n.outbox ++ [forwardClone p n.id])) ∧
    floodingOnReceive defaultFloodingConfig "n1"
        (createPacket "pkt2" "src" "n2" [] 0 0) 0 =
      { action := .drop
        reason := "Hop limit exhausted"
        delay := none
        modifiedPacket := none } ∧
    (floodingOnReceive defaultFloodingConfig "n1"
        (createPacket "pkt3" "src" "n1" [] 5 0) 0).action = .deliver := by
  refine ⟨?_, ?_, ?_⟩
  · exact
      (flooding_onReceive_decisions defaultFloodingConfig (initNode "n1")
          (createPacket "pkt" "src" "broadcast" [7] 2 0) 0).1 rfl (by decide)
  · exact
      (flooding_onReceive_decisions defaultFloodingConfig (initNode "n1")
          (createPacket "pkt2" "src" "n2" [] 0 0) 0).2.1 (by decide) (by decide) rfl
  · exact
      (flooding_onReceive_decisions defaultFloodingConfig (initNode "n1")
          (createPacket "pkt3" "src" "n1" [] 5 0) 0).2.2 rfl (by decide)
/-- MeshAddress of core/addressing.ts (octets plus the convenience
fields derived from them). -/
structure MeshAddress where
  octet1 : Int
  octet2 : Int
  octet3 : Int
  regionX : Int
  regionY : Int
  cellX : Int
  cellY : Int
  deriving Repr, DecidableEq

/-- JS String.split with the one-character separator ".", at the level of
character lists: a new (possibly empty) segment after every dot. -/
def splitOnDot : List Char → List (List Char)
  | [] => [[]]
  | c :: cs =>
    if c = '.' then [] :: splitOnDot cs
    else
      match splitOnDot cs with
      | [] => [[c]]
      | seg :: rest => (c :: seg) :: rest

/-- Whitespace skipped by the JS parseInt trimming step (the common ASCII
whitespace and line terminators; further Unicode space characters behave
the same way and never occur in the claims under check). -/
def isJsSpace (c : Char) : Bool :=
  c = ' ' || c = '\t' || c = '\n' || c = '\r' || c = '\x0b' || c = '\x0c'

/-- The longest leading run of decimal digits. -/
def digitsPrefix : List Char → List Char
  | [] => []
  | c :: cs => if c.isDigit then c :: digitsPrefix cs else []

/-- Value of a digit list, most significant first. -/
def digitsToNat (ds : List Char) : Nat :=
  ds.foldl (fun acc c => acc * 10 + (c.toNat - 48)) 0

/-- JS parseInt(segment, 10): skip leading whitespace, read an optional
sign, consume the longest digit prefix (ignoring whatever follows), and
return NaN (modelled as none) when that prefix is empty.  Digit strings
long enough to lose float precision stay far outside the octet ranges and
are rejected by parseAddress either way. -/
def parseIntJS (s : List Char) : Option Int :=
  let cs := s.dropWhile (fun c => isJsSpace c)
  let signAndRest : Int × List Char :=
    match cs with
    | '-' :: rest => (-1, rest)
    | '+' :: rest => (1, rest)
    | _ => (1, cs)
  let ds := digitsPrefix signAndRest.2
  if ds.isEmpty then none else some (signAndRest.1 * digitsToNat ds)

/-- parseAddress of core/addressing.ts: split on dots, demand exactly
three parts, parse each with parseInt, and reject NaN or out-of-range
octets with null.  The derived cell fields use shift/mask on the already
range-checked octet3, which on 1..4095 is division and remainder by 64.
The function is total: no input makes it throw. -/
def parseAddress (str : String) : Option MeshAddress :=
  match splitOnDot str.data with
  | [p1, p2, p3] =>
    match parseIntJS p1, parseIntJS p2, parseIntJS p3 with
    | some o1, some o2, some o3 =>
      if o1 < 1 ∨ 255 < o1 ∨ o2 < 0 ∨ 255 < o2 ∨ o3 < 1 ∨ 4095 < o3 then
        none
      else
        some
          { octet1 := o1
            octet2 := o2
            octet3 := o3
            regionX := o2
            regionY := o1 - 1
            cellX := o3 % 64
            cellY := (o3 / 64) % 64 }
    | _, _, _ => none
  | _ => none

theorem parseAddress_of_three (str : String) (p1 p2 p3 : List Char)
    (hs : splitOnDot str.data = [p1, p2, p3]) :
    parseAddress str =
      match parseIntJS p1, parseIntJS p2, parseIntJS p3 with
      | some o1, some o2, some o3 =>
        if o1 < 1 ∨ 255 < o1 ∨ o2 < 0 ∨ 255 < o2 ∨ o3 < 1 ∨ 4095 < o3 then
          none
        else
          some
            { octet1 := o1
              octet2 := o2
              octet3 := o3
              regionX := o2
              regionY := o1 - 1
              cellX := o3 % 64
              cellY := (o3 / 64) % 64 }
      | _, _, _ => none := by
  unfold parseAddress
  rw [hs]

/-- Claim C10 (amended: parseInt tolerates a leading sign, leading
whitespace and trailing non-digits, so a segment is accepted exactly when
its parseInt value exists and is in range): parseAddress returns an
address exactly when the string splits on dots into three segments whose
parseInt values lie in the octet ranges; any returned address satisfies
those ranges; wrong segment counts, segments without a digit prefix and
out-of-range octets give null, and the function never throws (it is total
by construction). -/
theorem parseAddress_characterization :
    (∀ s : String,
      (parseAddress s).isSome ↔
        ∃ p1 p2 p3, splitOnDot s.data = [p1, p2, p3] ∧
          ∃ n1 n2 n3,
            parseIntJS p1 = some n1 ∧ parseIntJS p2 = some n2 ∧
            parseIntJS p3 = some n3 ∧
            1 ≤ n1 ∧ n1 ≤ 255 ∧ 0 ≤ n2 ∧ n2 ≤ 255 ∧ 1 ≤ n3 ∧ n3 ≤ 4095) ∧
    (∀ s a, parseAddress s = some a →
      1 ≤ a.octet1 ∧ a.octet1 ≤ 255 ∧ 0 ≤ a.octet2 ∧ a.octet2 ≤ 255 ∧
        1 ≤ a.octet3 ∧ a.octet3 ≤ 4095) ∧
    parseAddress "1.2" = none ∧
    parseAddress "1.2.3.4" = none ∧
    parseAddress "a.2.3" = none ∧
    parseAddress "0.2.3" = none ∧
    parseAddress "256.2.3" = none ∧
    parseAddress "1.256.3" = none ∧
    parseAddress "1.2.0" = none ∧
    parseAddress "1.2.4096" = none ∧
    parseAddress "1.-1.3" = none := by
  have key : ∀ s a, parseAddress s = some a →
      ∃ p1 p2 p3, splitOnDot s.data = [p1, p2, p3] ∧
        ∃ n1 n2 n3,
          parseIntJS p1 = some n1 ∧ parseIntJS p2 = some n2 ∧
          parseIntJS p3 = some n3 ∧
          (1 ≤ n1 ∧ n1 ≤ 255 ∧ 0 ≤ n2 ∧ n2 ≤ 255 ∧ 1 ≤ n3 ∧ n3 ≤ 4095) ∧
          a.octet1 = n1 ∧ a.octet2 = n2 ∧ a.octet3 = n3 := by
    intro s a h
    rcases hs : splitOnDot s.data with _ | ⟨p1, _ | ⟨p2, _ | ⟨p3, _ | ⟨p4, rest⟩⟩⟩⟩
    · unfold parseAddress at h
      rw [hs] at h
      simp at h
    · unfold parseAddress at h
      rw [hs] at h
      simp at h
    · unfold parseAddress at h
      rw [hs] at h
      simp at h
    · rw [parseAddress_of_three s p1 p2 p3 hs] at h
      rcases h1 : parseIntJS p1 with _ | n1 <;> rw [h1] at h
      · simp at h
      rcases h2 : parseIntJS p2 with _ | n2 <;> rw [h2] at h
      · simp at h
      rcases h3 : parseIntJS p3 with _ | n3 <;> rw [h3] at h
      · simp at h
      simp only [] at h
      by_cases hr : n1 < 1 ∨ 255 < n1 ∨ n2 < 0 ∨ 255 < n2 ∨ n3 < 1 ∨ 4095 < n3
      · rw [if_pos hr] at h
        simp at h
      · rw [if_neg hr] at h
        cases h
        exact ⟨p1, p2, p3, rfl, n1, n2, n3, h1, h2, h3,
          ⟨by omega, by omega, by omega, by omega, by omega, by omega⟩,
          rfl, rfl, rfl⟩
    · unfold parseAddress at h
      rw [hs] at h
      simp at h
  refine ⟨?_, ?_, by decide, by decide, by decide, by decide, by decide,
    by decide, by decide, by decide, by decide⟩
  · intro s
    constructor
    · intro h
      rcases ha : parseAddress s with _ | a
      · rw [ha] at h
        simp at h
      · obtain ⟨p1, p2, p3, hs, n1, n2, n3, h1, h2, h3, hr, _⟩ := key s a ha
        exact ⟨p1, p2, p3, hs, n1, n2, n3, h1, h2, h3, hr.1, hr.2.1, hr.2.2.1,
          hr.2.2.2.1, hr.2.2.2.2.1, hr.2.2.2.2.2⟩
    · rintro ⟨p1, p2, p3, hs, n1, n2, n3, h1, h2, h3, hr1, hr2, hr3, hr4, hr5, hr6⟩
      rw [parseAddress_of_three s p1 p2 p3 hs, h1, h2, h3]
      simp only []
      rw [if_neg (by omega)]
      rfl
  · intro s a h
    obtain ⟨p1, p2, p3, hs, n1, n2, n3, h1, h2, h3, hr, e1, e2, e3⟩ := key s a h
    rw [e1, e2, e3]
    exact hr

/-- Counterexample to claim C10 as stated: the segment "1x" is not
numeric, yet parseAddress accepts "1x.0.1" because parseInt reads the
leading digit and ignores the rest. -/
theorem parseAddress_counterexample :
    (parseAddress "1x.0.1").isSome = true ∧
    ("1x".data.all Char.isDigit) = false := by
  decide

/-- Concrete instantiation of parseAddress_characterization at the
address string "10.20.300". -/
theorem parseAddress_characterization_witness :
    ∃ a, parseAddress "10.20.300" = some a ∧
      1 ≤ a.octet1 ∧ a.octet1 ≤ 255 ∧ 0 ≤ a.octet2 ∧ a.octet2 ≤ 255 ∧
      1 ≤ a.octet3 ∧ a.octet3 ≤ 4095 := by
  rcases ha : parseAddress "10.20.300" with _ | a
  · exact absurd ha (by decide)
  · exact ⟨a, rfl, parseAddress_characterization.2.1 "10.20.300" a ha⟩

/-- RadioMediumConfig of core/radio-medium.ts (the propagation and
reception fields; collision/fading/terrain switches do not enter
calculatePathLoss or getLinkBudget and the terrain sub-config is used
only by the asynchronous path).  The exponent 2.7 of DEFAULT_CONFIG is
written 27/10. -/
structure RadioMediumConfig where
  pathLossExponent : ℝ
  referenceDistance : ℝ
  referenceLoss : ℝ
  rxSensitivity : ℝ
  enableFading : Bool
  fadingSigma : ℝ

/-- DEFAULT_CONFIG of core/radio-medium.ts. -/
noncomputable def defaultRadioConfig : RadioMediumConfig :=
  { pathLossExponent := 27 / 10
    referenceDistance := 1
    referenceLoss := 40
    rxSensitivity := -130
    enableFading := true
    fadingSigma := 4 }

/-- RadioMedium.calculatePathLoss: log-distance path loss, clamped to the
reference loss below the reference distance; Math.log10 is the base-10
real logarithm. -/
noncomputable def calculatePathLoss (cfg : RadioMediumConfig) (distanceKm : ℝ) : ℝ :=
  let distanceM := distanceKm * 1000
  if distanceM < cfg.referenceDistance then
    cfg.referenceLoss
  else
    cfg.referenceLoss +
      10 * cfg.pathLossExponent * Real.logb 10 (distanceM / cfg.referenceDistance)

/-- LinkBudget of core/radio-medium.ts (the synchronous fields). -/
structure LinkBudgetR where
  distance : ℝ
  pathLoss : ℝ
  rssi : ℝ
  snr : ℝ
  canReceive : Prop

/-- RadioMedium.getLinkBudget at a given sender transmit power and
node-pair distance.  In the source the distance is the haversine distance
of the two node positions; the claim quantifies over distances, so the
distance enters as a parameter here. -/
noncomputable def getLinkBudgetAt (cfg : RadioMediumConfig) (txPower : ℝ)
    (d : ℝ) : LinkBudgetR :=
  { distance := d
    pathLoss := calculatePathLoss cfg d
    rssi := txPower - calculatePathLoss cfg d
    snr := txPower - calculatePathLoss cfg d - (-140)
    canReceive := txPower - calculatePathLoss cfg d ≥ cfg.rxSensitivity }

/-- Claim C9 (amended: the strict decrease holds from the reference
distance up and for a positive path-loss exponent; below the reference
distance the clamp makes the RSSI constant): with fading disabled (the
synchronous getLinkBudget applies no fading at all), RSSI strictly
decreases with distance for a fixed transmit power once the distance is
at or above the reference distance, a larger path-loss exponent never
gives a larger RSSI, and below the reference distance the path loss is
clamped to the reference loss. -/
theorem rssi_monotone (cfg : RadioMediumConfig) (tx : ℝ) :
    (∀ d1 d2 : ℝ, 0 < cfg.pathLossExponent → 0 < cfg.referenceDistance →
      cfg.referenceDistance ≤ d1 * 1000 → d1 < d2 →
      (getLinkBudgetAt cfg tx d2).rssi < (getLinkBudgetAt cfg tx d1).rssi) ∧
    (∀ n1 n2 d : ℝ, 0 < cfg.referenceDistance → 0 ≤ d → n1 ≤ n2 →
      (getLinkBudgetAt { cfg with pathLossExponent := n2 } tx d).rssi ≤
        (getLinkBudgetAt { cfg with pathLossExponent := n1 } tx d).rssi) ∧
    (∀ d : ℝ, d * 1000 < cfg.referenceDistance →
      (getLinkBudgetAt cfg tx d).pathLoss = cfg.referenceLoss) := by
  refine ⟨?_, ?_, ?_⟩
  · intro d1 d2 hexp href h1 h12
    have h1m : ¬ d1 * 1000 < cfg.referenceDistance := by linarith
    have h2m : ¬ d2 * 1000 < cfg.referenceDistance := by nlinarith
    have hnum : (0 : ℝ) < d1 * 1000 := lt_of_lt_of_le href h1
    have hlog :
        Real.logb 10 (d1 * 1000 / cfg.referenceDistance) <
          Real.logb 10 (d2 * 1000 / cfg.referenceDistance) := by
      apply Real.logb_lt_logb (by norm_num)
      · exact div_pos hnum href
      · apply div_lt_div_of_pos_right ?_ href
        linarith
    have hmul :
        10 * cfg.pathLossExponent * Real.logb 10 (d1 * 1000 / cfg.referenceDistance) <
          10 * cfg.pathLossExponent * Real.logb 10 (d2 * 1000 / cfg.referenceDistance) := by
      apply mul_lt_mul_of_pos_left hlog
      linarith
    simp only [getLinkBudgetAt, calculatePathLoss, if_neg h1m, if_neg h2m]
    linarith
  · intro n1 n2 d href hd hn
    by_cases hm : d * 1000 < cfg.referenceDistance
    · simp only [getLinkBudgetAt, calculatePathLoss, if_pos hm]
      exact le_rfl
    · simp only [getLinkBudgetAt, calculatePathLoss, if_neg hm]
      have hratio : (1 : ℝ) ≤ d * 1000 / cfg.referenceDistance := by
        rw [le_div_iff₀ href]
        linarith [not_lt.mp hm]
      have hlog : 0 ≤ Real.logb 10 (d * 1000 / cfg.referenceDistance) :=
        Real.logb_nonneg (by norm_num) hratio
      nlinarith
  · intro d hm
    simp only [getLinkBudgetAt, calculatePathLoss, if_pos hm]

/-- Counterexample to claim C9 as stated: at two distinct distances below
the reference distance the clamp gives equal RSSI, and with a zero
path-loss exponent the RSSI is independent of distance, so the
unrestricted strict decrease fails. -/
theorem rssi_strict_counterexample :
    ((1 / 10000 : ℝ) < 1 / 2000) ∧
    (getLinkBudgetAt defaultRadioConfig 20 (1 / 10000)).rssi =
      (getLinkBudgetAt defaultRadioConfig 20 (1 / 2000)).rssi ∧
    ((1 : ℝ) < 2) ∧
    (getLinkBudgetAt { defaultRadioConfig with pathLossExponent := 0 } 20 1).rssi =
      (getLinkBudgetAt { defaultRadioConfig with pathLossExponent := 0 } 20 2).rssi := by
  refine ⟨by norm_num, ?_, by norm_num, ?_⟩
  · simp only [getLinkBudgetAt, calculatePathLoss, defaultRadioConfig]
    rw [if_pos (by norm_num), if_pos (by norm_num)]
  · simp only [getLinkBudgetAt, calculatePathLoss, defaultRadioConfig]
    rw [if_neg (by norm_num), if_neg (by norm_num)]
    ring

/-- Concrete instantiation of rssi_monotone with the default
configuration, transmit power 20 dBm and distances 1 km and 2 km, plus
the exponent comparison 2 versus 3 at 1 km. -/
theorem rssi_monotone_witness :
    ((0 : ℝ) < defaultRadioConfig.pathLossExponent ∧
      (0 : ℝ) < defaultRadioConfig.referenceDistance ∧
      defaultRadioConfig.referenceDistance ≤ (1 : ℝ) * 1000 ∧
      (1 : ℝ) < 2 ∧
      (getLinkBudgetAt defaultRadioConfig 20 2).rssi <
        (getLinkBudgetAt defaultRadioConfig 20 1).rssi) ∧
    ((0 : ℝ) ≤ 1 ∧ (2 : ℝ) ≤ 3 ∧
      (getLinkBudgetAt { defaultRadioConfig with pathLossExponent := 3 } 20 1).rssi ≤
        (getLinkBudgetAt { defaultRadioConfig with pathLossExponent := 2 } 20 1).rssi) ∧
    ((1 : ℝ) / 10000 * 1000 < defaultRadioConfig.referenceDistance ∧
      (getLinkBudgetAt defaultRadioConfig 20 (1 / 10000)).pathLoss =
        defaultRadioConfig.referenceLoss) := by
  have hexp : (0 : ℝ) < defaultRadioConfig.pathLossExponent := by
    norm_num [defaultRadioConfig]
  have href : (0 : ℝ) < defaultRadioConfig.referenceDistance := by
    norm_num [defaultRadioConfig]
  have hle : defaultRadioConfig.referenceDistance ≤ (1 : ℝ) * 1000 := by
    norm_num [defaultRadioConfig]
  have h12 : (1 : ℝ) < 2 := one_lt_two
  have hclamp : (1 : ℝ) / 10000 * 1000 < defaultRadioConfig.referenceDistance := by
    norm_num [defaultRadioConfig]
  refine ⟨⟨hexp, href, hle, h12, ?_⟩, ⟨zero_le_one, by norm_num, ?_⟩, hclamp, ?_⟩
  · exact (rssi_monotone defaultRadioConfig 20).1 1 2 hexp href hle h12
  · exact (rssi_monotone defaultRadioConfig 20).2.1 2 3 1 href zero_le_one (by norm_num)
  · exact (rssi_monotone defaultRadioConfig 20).2.2 (1 / 10000) hclamp

/-- LinkEdgeData of graph/link-graph.ts.  The numeric fields are embedded
as integers: findPath only ever sums and compares the cached path-loss
values, the claim exercises integral dB values, and integer sums and
comparisons agree with the JS float ones on them. -/
structure LinkEdgeData where
  distance : Int
  pathLoss : Int
  rssi : Int
  canReceive : Bool
  hasLineOfSight : Option Bool
  terrainLoss : Option Int
  computedAt : Nat
  deriving Repr, DecidableEq

/-- The LinkGraph of graph/link-graph.ts as data: node ids and links in
insertion order, one stored link per pair as setLink maintains. -/
structure LinkGraph where
  nodes : List String
  links : List (String × String × LinkEdgeData)
  deriving Repr, DecidableEq

/-- LinkGraph.getNeighbors: both orientations of every stored link, in
insertion order. -/
def getNeighbors (g : LinkGraph) (nodeId : String) : List (String × LinkEdgeData) :=
  g.links.filterMap fun l =>
    if l.1 = nodeId then some (l.2.1, l.2.2)
    else if l.2.1 = nodeId then some (l.1, l.2.2)
    else none

/-- LinkGraph.getReachableNeighbors: neighbors whose link has
canReceive set. -/
def getReachableNeighbors (g : LinkGraph) (nodeId : String) :
    List (String × LinkEdgeData) :=
  (getNeighbors g nodeId).filter fun n => n.2.canReceive

/-- The BFS loop of LinkGraph.getNodesWithinHops.  The JS while loop
always terminates (every iteration pops one queue entry and entries are
only pushed for yet-unvisited nodes); the embedding carries explicit fuel
and the caller passes more than any run can consume. -/
def bfsWithinHops (g : LinkGraph) (maxHops : Nat) :
    Nat → List (String × Nat) → List String → List String
  | 0, _, visited => visited
  | _ + 1, [], visited => visited
  | fuel + 1, (cid, chops) :: rest, visited =>
    if cid ∈ visited then
      bfsWithinHops g maxHops fuel rest visited
    else
      let visited1 := visited ++ [cid]
      if chops < maxHops then
        let pushed :=
          ((getReachableNeighbors g cid).filter fun n => n.1 ∉ visited1).map
            fun n => (n.1, chops + 1)
        bfsWithinHops g maxHops fuel (rest ++ pushed) visited1
      else
        bfsWithinHops g maxHops fuel rest visited1

/-- Generous fuel bound: a run visits each queue entry once, and entries
are pushed only from a visit of a new node, each contributing at most all
link endpoints. -/
def bfsFuel (g : LinkGraph) : Nat :=
  (g.nodes.length + 2 * g.links.length + 2) * (2 * g.links.length + 2) + 2

/-- LinkGraph.getNodesWithinHops of graph/link-graph.ts: hop-bounded BFS
over reachable links from the start node; the start node is removed from
the visited set before returning it. -/
def getNodesWithinHops (g : LinkGraph) (nodeId : String) (maxHops : Nat) :
    List String :=
  (bfsWithinHops g maxHops (bfsFuel g) [(nodeId, 0)] []).erase nodeId

/-- Reachability along canReceive links in a bounded number of hops. -/
inductive ReachWithin (g : LinkGraph) (src : String) : String → Nat → Prop
  | refl : ReachWithin g src src 0
  | step {x y : String} {e : LinkEdgeData} {k : Nat} :
      ReachWithin g src x k → (y, e) ∈ getReachableNeighbors g x →
      ReachWithin g src y (k + 1)

theorem bfsWithinHops_nodup (g : LinkGraph) (maxHops : Nat) :
    ∀ fuel queue visited, List.Nodup visited →
      List.Nodup (bfsWithinHops g maxHops fuel queue visited) := by
  intro fuel
  induction fuel with
  | zero => intro queue visited h; exact h
  | succ fuel ih =>
    intro queue visited h
    match queue with
    | [] => exact h
    | (cid, chops) :: rest =>
      by_cases hmem : cid ∈ visited
      · rw [bfsWithinHops, if_pos hmem]
        exact ih rest visited h
      · have hnodup1 : List.Nodup (visited ++ [cid]) := by
          simp [List.nodup_append, h, hmem]
        by_cases hh : chops < maxHops
        · rw [bfsWithinHops, if_neg hmem]
          simp only [if_pos hh]
          exact ih _ _ hnodup1
        · rw [bfsWithinHops, if_neg hmem]
          simp only [if_neg hh]
          exact ih _ _ hnodup1

theorem bfsWithinHops_sound (g : LinkGraph) (maxHops : Nat) (src : String) :
    ∀ fuel queue visited,
      (∀ x h, (x, h) ∈ queue → h ≤ maxHops ∧ ReachWithin g src x h) →
      (∀ v ∈ visited, ∃ h, h ≤ maxHops ∧ ReachWithin g src v h) →
      ∀ v ∈ bfsWithinHops g maxHops fuel queue visited,
        ∃ h, h ≤ maxHops ∧ ReachWithin g src v h := by
  intro fuel
  induction fuel with
  | zero => intro queue visited _ hv v hmem; exact hv v hmem
  | succ fuel ih =>
    intro queue visited hq hv v hmem
    match queue with
    | [] => exact hv v hmem
    | (cid, chops) :: rest =>
      have hhead := hq cid chops (List.mem_cons_self _ _)
      have hrest : ∀ x h, (x, h) ∈ rest → h ≤ maxHops ∧ ReachWithin g src x h :=
        fun x h hx => hq x h (List.mem_cons_of_mem _ hx)
      by_cases hseen : cid ∈ visited
      · rw [bfsWithinHops, if_pos hseen] at hmem
        exact ih rest visited hrest hv v hmem
      · have hv1 : ∀ w ∈ visited ++ [cid], ∃ h, h ≤ maxHops ∧ ReachWithin g src w h := by
          intro w hw
          rcases List.mem_append.mp hw with hw | hw
          · exact hv w hw
          · rcases List.mem_singleton.mp hw with rfl
            exact ⟨chops, hhead⟩
        by_cases hh : chops < maxHops
        · rw [bfsWithinHops, if_neg hseen] at hmem
          simp only [if_pos hh] at hmem
          refine ih _ _ ?_ hv1 v hmem
          intro x h hx
          rcases List.mem_append.mp hx with hx | hx
          · exact hrest x h hx
          · rcases List.mem_map.mp hx with ⟨⟨nid, ne⟩, hn, hxn⟩
            have hn2 := List.mem_filter.mp hn
            cases hxn
            exact ⟨by omega, ReachWithin.step hhead.2 hn2.1⟩
        · rw [bfsWithinHops, if_neg hseen] at hmem
          simp only [if_neg hh] at hmem
          exact ih _ _ hrest hv1 v hmem

/-- The line graph A - B - C - D - E of the claim: reachable single-hop
links between consecutive nodes only. -/
def lineGraph : LinkGraph :=
  { nodes := ["A", "B", "C", "D", "E"]
    links :=
      [("A", "B", ⟨1, 70, -50, true, none, none, 0⟩),
       ("B", "C", ⟨1, 70, -50, true, none, none, 0⟩),
       ("C", "D", ⟨1, 70, -50, true, none, none, 0⟩),
       ("D", "E", ⟨1, 70, -50, true, none, none, 0⟩)] }

/-- Claim C8 (amended: on the true line graph the one-hop neighborhood of
B is the set of A and C; the set of A, C and D the claim names is the
one-hop neighborhood of B in the T-shaped test graph, where D is linked
to B directly): getNodesWithinHops performs a hop-bounded traversal along
canReceive links only, never returns the origin, and on the line graph
A - B - C - D - E gives exactly A and C for one hop from B. -/
theorem getNodesWithinHops_spec :
    (∀ (g : LinkGraph) (id : String) (maxHops : Nat),
      id ∉ getNodesWithinHops g id maxHops) ∧
    (∀ (g : LinkGraph) (id : String) (maxHops : Nat) (v : String),
      v ∈ getNodesWithinHops g id maxHops →
        ∃ h, h ≤ maxHops ∧ ReachWithin g id v h) ∧
    getNodesWithinHops lineGraph "B" 1 = ["A", "C"] := by
  refine ⟨?_, ?_, by decide⟩
  · intro g id maxHops
    have hnodup : (bfsWithinHops g maxHops (bfsFuel g) [(id, 0)] []).Nodup :=
      bfsWithinHops_nodup g maxHops (bfsFuel g) [(id, 0)] [] List.nodup_nil
    exact hnodup.not_mem_erase
  · intro g id maxHops v hv
    have hv2 : v ∈ bfsWithinHops g maxHops (bfsFuel g) [(id, 0)] [] :=
      List.mem_of_mem_erase hv
    refine bfsWithinHops_sound g maxHops id (bfsFuel g) [(id, 0)] [] ?_ ?_ v hv2
    · intro x h hx
      rcases List.mem_singleton.mp hx with ⟨rfl, rfl⟩
      exact ⟨Nat.zero_le _, ReachWithin.refl⟩
    · intro w hw
      cases hw

/-- Counterexample to claim C8 as stated: on the line graph A - B - C -
D - E with only consecutive reachable links, D is two hops from B, so it
is not in the one-hop result, which the claim says equals the set of A,
C and D. -/
theorem getNodesWithinHops_line_counterexample :
    ("D" ∉ getNodesWithinHops lineGraph "B" 1) ∧
    getNodesWithinHops lineGraph "B" 1 ≠ ["A", "C", "D"] := by
  decide

/-- Concrete instantiation of getNodesWithinHops_spec on the line graph:
the origin B is excluded, and the member A is reachable within one hop. -/
theorem getNodesWithinHops_spec_witness :
    ("B" ∉ getNodesWithinHops lineGraph "B" 1) ∧
    ("A" ∈ getNodesWithinHops lineGraph "B" 1 ∧
      ∃ h, h ≤ 1 ∧ ReachWithin lineGraph "B" "A" h) := by
  refine ⟨getNodesWithinHops_spec.1 lineGraph "B" 1, by decide, ?_⟩
  exact getNodesWithinHops_spec.2.1 lineGraph "B" 1 "A" (by decide)

theorem mem_of_getLast?_eq {α : Type} {l : List α} {a : α}
    (h : l.getLast? = some a) : a ∈ l := by
  rcases List.mem_getLast?_eq_getLast (Option.mem_def.mpr h) with ⟨hne, rfl⟩
  exact List.getLast_mem hne

/-- Ids reachable from a node over canReceive links (the neighbor ids
getReachableNeighbors yields, in order). -/
def reachableAdj (g : LinkGraph) (x : String) : List String :=
  (getReachableNeighbors g x).map fun n => n.1

/-- Modelled from the spec: LinkGraph.findPath delegates the search to
the nba pathfinder of the external ngraph.path package, which is not code
of this repository; per the spec it is a bidirectional best-first search
that minimizes cumulative path loss, with canReceive=false links blocked.
The model enumerates all loop-free paths along canReceive links
(depth-first, neighbor order) and picks the cheapest, first found on
ties. -/
def pathsFrom (g : LinkGraph) : Nat → String → String → List String → List (List String)
  | 0, _, _, _ => []
  | fuel + 1, current, target, visited =>
    if current = target then [[current]]
    else
      ((reachableAdj g current).filter fun y => y ∉ visited).flatMap fun y =>
        (pathsFrom g fuel y target (y :: visited)).map fun p => current :: p

/-- Fuel that no loop-free path can exhaust: one more than one step per
link endpoint plus the start. -/
def pathFuel (g : LinkGraph) : Nat :=
  g.nodes.length + 2 * g.links.length + 2

/-- All loop-free canReceive paths from a to b. -/
def simplePathsList (g : LinkGraph) (a b : String) : List (List String) :=
  pathsFrom g (pathFuel g) a b [a]

/-- Path loss of the stored link between two ids (either orientation). -/
def edgeLoss (g : LinkGraph) (x y : String) : Int :=
  match g.links.find? fun l => (l.1 = x && l.2.1 = y) || (l.1 = y && l.2.1 = x) with
  | some l => l.2.2.pathLoss
  | none => 0

/-- Cumulative path loss along a node sequence. -/
def pathCost (g : LinkGraph) (p : List String) : Int :=
  ((p.zip p.tail).map fun e => edgeLoss g e.1 e.2).sum

/-- The cheapest of a list of paths, first found on ties. -/
def pickMinPath (g : LinkGraph) : List (List String) → Option (List String)
  | [] => none
  | p :: ps =>
    some (ps.foldl (fun best q => if pathCost g q < pathCost g best then q else best) p)

/-- LinkGraph.findPath of graph/link-graph.ts over the modelled search:
empty when either endpoint is missing or no path exists, otherwise the
minimum-path-loss path from a to b. -/
def findPath (g : LinkGraph) (a b : String) : List String :=
  if a ∈ g.nodes ∧ b ∈ g.nodes then
    match pickMinPath g (simplePathsList g a b) with
    | some p => p
    | none => []
  else []

/-- A loop-free path from a to b whose steps all follow canReceive
links. -/
def IsSimplePath (g : LinkGraph) (a b : String) (p : List String) : Prop :=
  p.head? = some a ∧ p.getLast? = some b ∧ p.Nodup ∧
    List.Chain' (fun x y => y ∈ reachableAdj g x) p

theorem pickMinPath_mem (g : LinkGraph) :
    ∀ (l : List (List String)) (p : List String),
      pickMinPath g l = some p → p ∈ l := by
  have aux : ∀ (ps : List (List String)) (best : List String),
      ps.foldl (fun best q => if pathCost g q < pathCost g best then q else best) best
          = best ∨
        ps.foldl (fun best q => if pathCost g q < pathCost g best then q else best) best
          ∈ ps := by
    intro ps
    induction ps with
    | nil => intro best; exact Or.inl rfl
    | cons q ps ih =>
      intro best
      simp only [List.foldl_cons]
      rcases ih (if pathCost g q < pathCost g best then q else best) with h | h
      · rw [h]
        by_cases hc : pathCost g q < pathCost g best
        · rw [if_pos hc]; exact Or.inr (List.mem_cons_self _ _)
        · rw [if_neg hc]; exact Or.inl rfl
      · exact Or.inr (List.mem_cons_of_mem _ h)
  intro l p hp
  match l with
  | [] => cases hp
  | q :: ps =>
    simp only [pickMinPath, Option.some.injEq] at hp
    rcases aux ps q with h | h
    · rw [← hp, h]; exact List.mem_cons_self _ _
    · rw [← hp]; exact List.mem_cons_of_mem _ h

theorem pickMinPath_le (g : LinkGraph) :
    ∀ (l : List (List String)) (p : List String),
      pickMinPath g l = some p → ∀ q ∈ l, pathCost g p ≤ pathCost g q := by
  have aux : ∀ (ps : List (List String)) (best : List String),
      pathCost g (ps.foldl
          (fun best q => if pathCost g q < pathCost g best then q else best) best) ≤
          pathCost g best ∧
        ∀ q ∈ ps,
          pathCost g (ps.foldl
            (fun best q => if pathCost g q < pathCost g best then q else best) best) ≤
            pathCost g q := by
    intro ps
    induction ps with
    | nil => intro best; exact ⟨le_rfl, by intro q hq; cases hq⟩
    | cons q ps ih =>
      intro best
      simp only [List.foldl_cons]
      have step := ih (if pathCost g q < pathCost g best then q else best)
      have hle : pathCost g (if pathCost g q < pathCost g best then q else best) ≤
          pathCost g best ∧
          pathCost g (if pathCost g q < pathCost g best then q else best) ≤
            pathCost g q := by
        by_cases hc : pathCost g q < pathCost g best
        · rw [if_pos hc]; exact ⟨le_of_lt hc, le_rfl⟩
        · rw [if_neg hc]; exact ⟨le_rfl, le_of_not_lt hc⟩
      refine ⟨le_trans step.1 hle.1, ?_⟩
      intro r hr
      rcases List.mem_cons.mp hr with rfl | hr
      · exact le_trans step.1 hle.2
      · exact step.2 r hr
  intro l p hp q hq
  match l with
  | [] => cases hp
  | r :: ps =>
    simp only [pickMinPath, Option.some.injEq] at hp
    rcases List.mem_cons.mp hq with rfl | hq
    · rw [← hp]; exact (aux ps q).1
    · rw [← hp]; exact (aux ps r).2 q hq

theorem pathsFrom_sound (g : LinkGraph) :
    ∀ (fuel : Nat) (current target : String) (visited : List String)
      (p : List String), p ∈ pathsFrom g fuel current target visited →
      p.head? = some current ∧ p.getLast? = some target ∧
        List.Chain' (fun x y => y ∈ reachableAdj g x) p ∧
        p.tail.Nodup ∧ ∀ x ∈ p.tail, x ∉ visited := by
  intro fuel
  induction fuel with
  | zero => intro current target visited p hp; cases hp
  | succ fuel ih =>
    intro current target visited p hp
    rw [pathsFrom] at hp
    by_cases heq : current = target
    · rw [if_pos heq] at hp
      rcases List.mem_singleton.mp hp with rfl
      subst heq
      refine ⟨rfl, rfl, List.chain'_singleton _, List.nodup_nil, ?_⟩
      intro x hx
      cases hx
    · rw [if_neg heq] at hp
      rcases List.mem_flatMap.mp hp with ⟨y, hy, hmem⟩
      rcases List.mem_map.mp hmem with ⟨p1, hp1, rfl⟩
      have hyf := List.mem_filter.mp hy
      have hynv : y ∉ visited := by
        have := hyf.2
        simpa using this
      obtain ⟨hh1, hl1, hc1, hn1, hd1⟩ := ih y target (y :: visited) p1 hp1
      rcases p1 with _ | ⟨y1, p2⟩
      · cases hh1
      · have hy1 : y1 = y := by simpa using hh1
        subst hy1
        refine ⟨rfl, ?_, ?_, ?_, ?_⟩
        · rw [List.getLast?_cons_cons]
          exact hl1
        · rw [List.chain'_cons]
          exact ⟨hyf.1, hc1⟩
        · simp only [List.tail_cons]
          refine List.nodup_cons.mpr ⟨?_, by simpa using hn1⟩
          intro hyp2
          exact (hd1 y1 (by simpa using hyp2)) (List.mem_cons_self _ _)
        · intro x hx
          simp only [List.tail_cons] at hx
          rcases List.mem_cons.mp hx with rfl | hx
          · exact hynv
          · intro hxv
            exact (hd1 x (by simpa using hx)) (List.mem_cons_of_mem _ hxv)

theorem pathsFrom_complete (g : LinkGraph) :
    ∀ (p : List String) (fuel : Nat) (current target : String)
      (visited : List String),
      p.length ≤ fuel → p.head? = some current → p.getLast? = some target →
      List.Chain' (fun x y => y ∈ reachableAdj g x) p →
      p.tail.Nodup → (∀ x ∈ p.tail, x ∉ visited) → current ∈ visited →
      p ∈ pathsFrom g fuel current target visited := by
  intro p
  induction p with
  | nil => intro fuel current target visited _ hh; cases hh
  | cons c q ih =>
    intro fuel current target visited hlen hh hl hchain hnodup hdisj hcur
    have hc : c = current := by simpa using hh
    subst hc
    cases fuel with
    | zero => simp at hlen
    | succ fuel => ?_
    · rw [pathsFrom]
      match q, hl, hchain, hnodup, hdisj with
      | [], hl, _, _, _ =>
        have : c = target := by simpa using hl
        subst this
        rw [if_pos rfl]
        exact List.mem_singleton.mpr rfl
      | y :: q1, hl, hchain, hnodup, hdisj =>
        have hl1 : (y :: q1).getLast? = some target := by
          rw [List.getLast?_cons_cons] at hl
          exact hl
        have htargetmem : target ∈ y :: q1 := mem_of_getLast?_eq hl1
        have hne : c ≠ target := by
          intro he
          exact hdisj target (by simpa using htargetmem) (he ▸ hcur)
        rw [if_neg hne]
        have hchain1 := List.chain'_cons.mp hchain
        have hymem : y ∉ visited := hdisj y (by simp)
        refine List.mem_flatMap.mpr ⟨y, ?_, ?_⟩
        · refine List.mem_filter.mpr ⟨hchain1.1, ?_⟩
          simpa using hymem
        · refine List.mem_map.mpr ⟨y :: q1, ?_, rfl⟩
          have hq1nodup : (y :: q1).Nodup := by simpa using hnodup
          refine ih fuel y target (y :: visited) ?_ rfl hl1 hchain1.2 ?_ ?_
            (List.mem_cons_self _ _)
          · have := hlen
            simp only [List.length_cons] at this ⊢
            omega
          · exact (List.nodup_cons.mp hq1nodup).2
          · intro x hx
            simp only [List.tail_cons] at hx
            intro hxv
            rcases List.mem_cons.mp hxv with rfl | hxv
            · exact (List.nodup_cons.mp hq1nodup).1 hx
            · exact hdisj x (by simpa using List.mem_cons_of_mem y hx) hxv

/-- Both endpoints of every stored link. -/
def linkEndpoints (g : LinkGraph) : List String :=
  g.links.flatMap fun l => [l.1, l.2.1]

theorem flatMap_pair_length (ls : List (String × String × LinkEdgeData)) :
    (ls.flatMap fun l => [l.1, l.2.1]).length = 2 * ls.length := by
  induction ls with
  | nil => rfl
  | cons l ls ih =>
    simp only [List.flatMap_cons, List.length_append, ih, List.length_cons,
      List.length_nil]
    omega

theorem reachableAdj_subset (g : LinkGraph) (x y : String)
    (h : y ∈ reachableAdj g x) : y ∈ linkEndpoints g := by
  unfold reachableAdj getReachableNeighbors getNeighbors at h
  rcases List.mem_map.mp h with ⟨⟨z, e⟩, hz, rfl⟩
  have hz1 := (List.mem_filter.mp hz).1
  rcases List.mem_filterMap.mp hz1 with ⟨l, hl, hfl⟩
  refine List.mem_flatMap.mpr ⟨l, hl, ?_⟩
  by_cases h1 : l.1 = x
  · rw [if_pos h1] at hfl
    cases hfl
    simp
  · rw [if_neg h1] at hfl
    by_cases h2 : l.2.1 = x
    · rw [if_pos h2] at hfl
      cases hfl
      simp
    · rw [if_neg h2] at hfl
      cases hfl

theorem chain'_tail_mem {R : String → String → Prop} :
    ∀ (l : List String), List.Chain' R l → ∀ y ∈ l.tail, ∃ x, R x y := by
  intro l
  induction l with
  | nil => intro _ y hy; cases hy
  | cons c rest ih =>
    intro hc y hy
    simp only [List.tail_cons] at hy
    match rest, hc, hy with
    | [], _, hy => cases hy
    | y0 :: rest1, hc, hy =>
      rcases List.mem_cons.mp hy with rfl | hy
      · exact ⟨c, (List.chain'_cons.mp hc).1⟩
      · exact ih (List.chain'_cons.mp hc).2 y (by simpa using hy)

theorem nodup_subset_length {l l' : List String} (h : l.Nodup) (hs : l ⊆ l') :
    l.length ≤ l'.length := by
  have h1 : l.toFinset.card = l.length := List.toFinset_card_of_nodup h
  have h2 : l.toFinset ⊆ l'.toFinset := by
    intro x hx
    simp only [List.mem_toFinset] at hx ⊢
    exact hs hx
  calc l.length = l.toFinset.card := h1.symm
    _ ≤ l'.toFinset.card := Finset.card_le_card h2
    _ ≤ l'.length := l'.toFinset_card_le

theorem simplePath_length_le (g : LinkGraph) (a b : String) (q : List String)
    (h : IsSimplePath g a b q) : q.length ≤ pathFuel g := by
  obtain ⟨hh, hl, hnd, hch⟩ := h
  have hsub : q ⊆ a :: linkEndpoints g := by
    intro z hz
    rcases q with _ | ⟨c, q1⟩
    · cases hz
    · have hc : c = a := by simpa using hh
      subst hc
      rcases List.mem_cons.mp hz with rfl | hz
      · exact List.mem_cons_self _ _
      · obtain ⟨x, hx⟩ := chain'_tail_mem _ hch z (by simpa using hz)
        exact List.mem_cons_of_mem _ (reachableAdj_subset g x z hx)
  have hlen := nodup_subset_length hnd hsub
  have hend := flatMap_pair_length g.links
  unfold linkEndpoints at hlen
  simp only [List.length_cons, hend] at hlen
  unfold pathFuel
  omega

/-- The chain A - B - C - D with per-hop path losses 70, 80, 75 dB plus
a direct A - D link of 300 dB, as in the pathfinding test. -/
def chainGraph : LinkGraph :=
  { nodes := ["A", "B", "C", "D"]
    links :=
      [("A", "B", ⟨1, 70, -50, true, none, none, 0⟩),
       ("B", "C", ⟨1, 80, -50, true, none, none, 0⟩),
       ("C", "D", ⟨1, 75, -50, true, none, none, 0⟩),
       ("A", "D", ⟨1, 300, -50, true, none, none, 0⟩)] }

/-- The same chain after B - C becomes unreachable, with a direct
200 dB A - D link. -/
def blockedGraph : LinkGraph :=
  { nodes := ["A", "B", "C", "D"]
    links :=
      [("A", "B", ⟨1, 70, -50, true, none, none, 0⟩),
       ("B", "C", ⟨1, 80, -50, false, none, none, 0⟩),
       ("C", "D", ⟨1, 75, -50, true, none, none, 0⟩),
       ("A", "D", ⟨1, 200, -50, true, none, none, 0⟩)] }

/-- Claim C6: findPath returns a loop-free path over canReceive links
whose cumulative path loss is minimal among all such paths (links with
canReceive false never enter a result), and on the two concrete scenarios
returns A-B-C-D (225 dB beating the 300 dB direct link) and A-D (200 dB
once B-C is unreachable). -/
theorem findPath_minimal :
    (∀ (g : LinkGraph) (a b : String) (q : List String),
      a ∈ g.nodes → b ∈ g.nodes → IsSimplePath g a b q →
      IsSimplePath g a b (findPath g a b) ∧
        pathCost g (findPath g a b) ≤ pathCost g q) ∧
    findPath chainGraph "A" "D" = ["A", "B", "C", "D"] ∧
    findPath blockedGraph "A" "D" = ["A", "D"] := by
  refine ⟨?_, by decide, by decide⟩
  intro g a b q ha hb hq
  have hq4 := hq
  obtain ⟨hqh, hql, hqnd, hqch⟩ := hq4
  obtain ⟨q1, rfl⟩ : ∃ q1, q = a :: q1 := by
    rcases q with _ | ⟨c, q1⟩
    · cases hqh
    · have hc : c = a := by simpa using hqh
      exact ⟨q1, by rw [hc]⟩
  have hqmem : (a :: q1) ∈ simplePathsList g a b := by
    apply pathsFrom_complete g (a :: q1) (pathFuel g) a b [a]
      (simplePath_length_le g a b _ hq) hqh hql hqch
    · exact (List.nodup_cons.mp hqnd).2
    · intro x hx hxa
      rcases List.mem_singleton.mp hxa with rfl
      exact (List.nodup_cons.mp hqnd).1 (by simpa using hx)
    · exact List.mem_singleton.mpr rfl
  rcases hpick : pickMinPath g (simplePathsList g a b) with _ | p
  · exfalso
    rcases hlist : simplePathsList g a b with _ | ⟨r, rs⟩
    · rw [hlist] at hqmem
      cases hqmem
    · rw [hlist] at hpick
      cases hpick
  · have hfp : findPath g a b = p := by
      unfold findPath
      rw [if_pos ⟨ha, hb⟩, hpick]
    have hmem := pickMinPath_mem g _ p hpick
    have hsound := pathsFrom_sound g (pathFuel g) a b [a] p hmem
    obtain ⟨hph, hpl, hpch, hpnd, hpd⟩ := hsound
    obtain ⟨p1, rfl⟩ : ∃ p1, p = a :: p1 := by
      rcases p with _ | ⟨d, p1⟩
      · cases hph
      · have hd : d = a := by simpa using hph
        exact ⟨p1, by rw [hd]⟩
    constructor
    · rw [hfp]
      refine ⟨hph, hpl, ?_, hpch⟩
      refine List.nodup_cons.mpr ⟨?_, by simpa using hpnd⟩
      intro hmem1
      exact hpd a (by simpa using hmem1) (List.mem_singleton.mpr rfl)
    · rw [hfp]
      exact pickMinPath_le g _ _ hpick _ hqmem

/-- Concrete instantiation of findPath_minimal on the chain graph with
the direct 300 dB link: the alternative path A-D is a simple path, and
the returned path is a simple path at most as costly. -/
theorem findPath_minimal_witness :
    ("A" ∈ chainGraph.nodes) ∧ ("D" ∈ chainGraph.nodes) ∧
    IsSimplePath chainGraph "A" "D" ["A", "D"] ∧
    IsSimplePath chainGraph "A" "D" (findPath chainGraph "A" "D") ∧
    pathCost chainGraph (findPath chainGraph "A" "D") ≤
      pathCost chainGraph ["A", "D"] := by
  have hpath : IsSimplePath chainGraph "A" "D" ["A", "D"] := by
    refine ⟨rfl, rfl, by decide, ?_⟩
    exact List.chain'_cons.mpr ⟨by decide, List.chain'_singleton _⟩
  have h := findPath_minimal.1 chainGraph "A" "D" ["A", "D"]
    (by decide) (by decide) hpath
  exact ⟨by decide, by decide, hpath, h.1, h.2⟩

/-- A pending packet delivery: a scheduled receive event of the
event-driven engine of core/simulation.ts, or a pending setTimeout
forwarding callback of the graph-enabled engine of core/addressing.ts. -/
structure SimEvent where
  time : Nat
  nodeId : String
  packet : Packet
  rssi : Int
  deriving Repr, DecidableEq

/-- The engine state the claims observe: node registry in insertion
order, packet registry keyed by logical packet id, and pending
deliveries. -/
structure SimState where
  nodes : List NodeState
  packetRegistry : List (String × Packet)
  pending : List SimEvent
  deriving Repr, DecidableEq

/-- The state of a freshly constructed Simulation. -/
def initSimState : SimState :=
  { nodes := [], packetRegistry := [], pending := [] }

/-- Apply a function to the node with the given id. -/
def updateNodes (nodes : List NodeState) (nid : String)
    (f : NodeState → NodeState) : List NodeState :=
  nodes.map fun n => if n.id = nid then f n else n

/-- processOutgoingPackets and transmitPacket register a packet under its
logical id on first sight (emitting packet:created). -/
def registerPacket (reg : List (String × Packet)) (p : Packet) :
    List (String × Packet) :=
  if reg.any fun kv => kv.1 = p.header.id then reg else reg ++ [(p.header.id, p)]

/-- One micro-operation of either simulation engine.  Every public
engine call is a composition of these: addNode; injectPacket =
send followed by transmit steps; step() = deliver steps for due events,
then transmit steps flushing outboxes; the graph-enabled transmitPacket =
a transmit step whose receive effects and forwarding timers are deliver
and transmit steps.  The radio medium only decides WHICH nodes receive a
transmission and when, so the receiver list of a transmit step is left
arbitrary: every concretely reachable engine state is reachable here.
The deliver step also covers receivePacket, which emits packet:received
and possibly packet:delivered but never writes to the packet. -/
inductive SimStep : SimState → SimState → Prop
  | addNode (s : SimState) (id : String) :
      (∀ n ∈ s.nodes, n.id ≠ id) →
      SimStep s { s with nodes := s.nodes ++ [initNode id] }
  | send (s : SimState) (cfg : FloodingConfig) (nid dest : String)
      (payload : List Nat) (pid : String) (now : Nat) :
      SimStep s
        { s with
          nodes := updateNodes s.nodes nid
            fun n => nodeSend cfg n dest payload pid now }
  | transmit (s : SimState) (nid : String) (p : Packet)
      (receivers : List (String × Int × Nat)) :
      (∃ n ∈ s.nodes, n.id = nid ∧ p ∈ n.outbox.take 1) →
      SimStep s
        { s with
          nodes := updateNodes s.nodes nid fun n => { n with outbox := n.outbox.drop 1 }
          packetRegistry := registerPacket s.packetRegistry p
          pending := s.pending ++ receivers.map fun r =>
            { time := r.2.2, nodeId := r.1, packet := p, rssi := r.2.1 } }
  | deliver (s : SimState) (cfg : FloodingConfig) (e : SimEvent) :
      e ∈ s.pending →
      SimStep s
        { s with
          pending := s.pending.erase e
          nodes := updateNodes s.nodes e.nodeId
            fun n => nodeReceive cfg n e.packet e.rssi }
  | removeNode (s : SimState) (id : String) :
      SimStep s { s with nodes := s.nodes.filter fun n => n.id ≠ id }
  | reset (s : SimState) :
      SimStep s
        { nodes := s.nodes.map nodeReset, packetRegistry := [], pending := [] }

/-- States the engine can reach from construction. -/
def SimReachable (s : SimState) : Prop :=
  Relation.ReflTransGen SimStep initSimState s

/-- SimulationStats of core/simulation.ts and core/addressing.ts (their
getStats bodies are identical); the averages and rate are rationals. -/
structure SimulationStats where
  totalPackets : Nat
  deliveredPackets : Nat
  droppedPackets : Nat
  averageHops : ℚ
  averageLatency : ℚ
  deliveryRate : ℚ

/-- Simulation.getStats: totals from the node counters, delivered count,
hops and latency from registry packets with a set deliveredAt, averages
guarded by the delivered count and the rate by the total. -/
def getStats (s : SimState) : SimulationStats :=
  let totalPackets := (s.nodes.map fun n => n.stats.packetsSent).sum
  let droppedPackets := (s.nodes.map fun n => n.stats.packetsDropped).sum
  let deliveredList := s.packetRegistry.filter fun kv => kv.2.meta.deliveredAt.isSome
  let deliveredPackets := deliveredList.length
  let totalHops : Int := (deliveredList.map fun kv => kv.2.header.hopCount).sum
  let totalLatency : Int :=
    (deliveredList.map fun kv =>
      (kv.2.meta.deliveredAt.getD 0 : Int) - (kv.2.meta.createdAt : Int)).sum
  { totalPackets := totalPackets
    deliveredPackets := deliveredPackets
    droppedPackets := droppedPackets
    averageHops :=
      if 0 < deliveredPackets then (totalHops : ℚ) / deliveredPackets else 0
    averageLatency :=
      if 0 < deliveredPackets then (totalLatency : ℚ) / deliveredPackets else 0
    deliveryRate :=
      if 0 < totalPackets then (deliveredPackets : ℚ) / totalPackets else 0 }

/-- No code path ever writes meta.deliveredAt, so every packet anywhere
in the state keeps deliveredAt = none. -/
def CleanState (s : SimState) : Prop :=
  (∀ kv ∈ s.packetRegistry, kv.2.meta.deliveredAt = none) ∧
  (∀ n ∈ s.nodes,
    (∀ p ∈ n.inbox, p.meta.deliveredAt = none) ∧
    (∀ p ∈ n.outbox, p.meta.deliveredAt = none)) ∧
  (∀ e ∈ s.pending, e.packet.meta.deliveredAt = none)

theorem cloneForForward_deliveredAt {p q : Packet} {f : String}
    (h : cloneForForward p f = some q) :
    q.meta.deliveredAt = p.meta.deliveredAt := by
  unfold cloneForForward at h
  split at h
  · cases h
  · cases h
    rfl

theorem floodingOnReceive_mp_cases (cfg : FloodingConfig) (nid : String)
    (p : Packet) (rssi : Int) :
    (floodingOnReceive cfg nid p rssi).modifiedPacket = none ∨
      (0 < p.header.hopLimit ∧
        (floodingOnReceive cfg nid p rssi).modifiedPacket =
          some (forwardClone p nid)) := by
  by_cases h1 : (p.header.destination = nid ∨ p.header.destination = "broadcast") ∧
      p.header.destination ≠ "broadcast"
  · left
    simp only [floodingOnReceive]
    rw [if_pos h1]
  · by_cases hb : p.header.destination = "broadcast"
    · by_cases hf : 0 < p.header.hopLimit
      · right
        refine ⟨hf, ?_⟩
        simp only [floodingOnReceive, cloneForForward_pos nid hf]
        rw [if_neg h1, if_pos hb, if_pos ⟨Or.inl hb, hf⟩]
      · left
        simp only [floodingOnReceive]
        rw [if_neg h1, if_pos hb, if_neg (by simp only [not_and]; intro _; omega)]
    · by_cases hf2 : (p.header.destination = "broadcast" ∨
          p.header.destination ≠ nid) ∧ p.header.hopLimit > 0
      · right
        refine ⟨hf2.2, ?_⟩
        simp only [floodingOnReceive, cloneForForward_pos nid hf2.2]
        rw [if_neg h1, if_neg hb, if_pos hf2]
      · left
        by_cases hl : p.header.hopLimit ≤ 0
        · simp only [floodingOnReceive]
          rw [if_neg h1, if_neg hb, if_neg hf2, if_pos hl]
        · simp only [floodingOnReceive]
          rw [if_neg h1, if_neg hb, if_neg hf2, if_neg hl]

theorem floodingOnReceive_modifiedPacket {cfg : FloodingConfig} {nid : String}
    {p q : Packet} {rssi : Int}
    (h : (floodingOnReceive cfg nid p rssi).modifiedPacket = some q) :
    q.meta.deliveredAt = p.meta.deliveredAt := by
  rcases floodingOnReceive_mp_cases cfg nid p rssi with hc | ⟨_, hc⟩
  · rw [hc] at h
    cases h
  · rw [hc] at h
    cases h
    rfl

theorem nodeReceive_clean (cfg : FloodingConfig) (n : NodeState) (p : Packet)
    (rssi : Int)
    (hin : ∀ x ∈ n.inbox, x.meta.deliveredAt = none)
    (hout : ∀ x ∈ n.outbox, x.meta.deliveredAt = none)
    (hp : p.meta.deliveredAt = none) :
    (∀ x ∈ (nodeReceive cfg n p rssi).inbox, x.meta.deliveredAt = none) ∧
    (∀ x ∈ (nodeReceive cfg n p rssi).outbox, x.meta.deliveredAt = none) := by
  unfold nodeReceive
  by_cases hmem : p.header.id ∈ n.seenPacketIds
  · simp only [if_pos hmem]
    exact ⟨hin, hout⟩
  · simp only [if_neg hmem]
    have hin2 : ∀ x ∈ n.inbox ++ [p], x.meta.deliveredAt = none := by
      intro x hx
      rcases List.mem_append.mp hx with hx | hx
      · exact hin x hx
      · rcases List.mem_singleton.mp hx with rfl
        exact hp
    split
    · exact ⟨hin2, hout⟩
    · refine ⟨hin2, ?_⟩
      intro x hx
      rcases List.mem_append.mp hx with hx | hx
      · exact hout x hx
      · rcases List.mem_singleton.mp hx with rfl
        rcases hmp : (floodingOnReceive cfg n.id p rssi).modifiedPacket with _ | q
        · exact hp
        · rw [show (some q).getD p = q from rfl,
            floodingOnReceive_modifiedPacket hmp]
          exact hp
    · exact ⟨hin2, hout⟩

theorem simStep_clean {s t : SimState} (hstep : SimStep s t)
    (hclean : CleanState s) : CleanState t := by
  obtain ⟨hreg, hnodes, hpend⟩ := hclean
  cases hstep with
  | addNode id hfresh =>
    refine ⟨hreg, ?_, hpend⟩
    intro n hn
    rcases List.mem_append.mp hn with hn | hn
    · exact hnodes n hn
    · rcases List.mem_singleton.mp hn with rfl
      exact ⟨fun p hp => absurd hp (List.not_mem_nil p),
        fun p hp => absurd hp (List.not_mem_nil p)⟩
  | send cfg nid dest payload pid now =>
    refine ⟨hreg, ?_, hpend⟩
    intro n hn
    rcases List.mem_map.mp hn with ⟨m, hm, rfl⟩
    by_cases h : m.id = nid
    · simp only [if_pos h]
      refine ⟨(hnodes m hm).1, ?_⟩
      intro x hx
      rcases List.mem_append.mp hx with hx | hx
      · exact (hnodes m hm).2 x hx
      · rcases List.mem_singleton.mp hx with rfl
        rfl
    · simp only [if_neg h]
      exact hnodes m hm
  | transmit nid p receivers hex =>
    obtain ⟨n0, hn0, hnid, hp01⟩ := hex
    have hpclean : p.meta.deliveredAt = none :=
      (hnodes n0 hn0).2 p (List.mem_of_mem_take hp01)
    refine ⟨?_, ?_, ?_⟩
    · intro kv hkv
      unfold registerPacket at hkv
      split at hkv
      · exact hreg kv hkv
      · rcases List.mem_append.mp hkv with hkv | hkv
        · exact hreg kv hkv
        · rcases List.mem_singleton.mp hkv with rfl
          exact hpclean
    · intro n hn
      rcases List.mem_map.mp hn with ⟨m, hm, rfl⟩
      by_cases h : m.id = nid
      · simp only [if_pos h]
        exact ⟨(hnodes m hm).1, fun x hx => (hnodes m hm).2 x (List.mem_of_mem_drop hx)⟩
      · simp only [if_neg h]
        exact hnodes m hm
    · intro e he
      rcases List.mem_append.mp he with he | he
      · exact hpend e he
      · rcases List.mem_map.mp he with ⟨r, _, rfl⟩
        exact hpclean
  | deliver cfg e he =>
    refine ⟨hreg, ?_, ?_⟩
    · intro n hn
      rcases List.mem_map.mp hn with ⟨m, hm, rfl⟩
      by_cases h : m.id = e.nodeId
      · simp only [if_pos h]
        exact nodeReceive_clean cfg m e.packet e.rssi (hnodes m hm).1
          (hnodes m hm).2 (hpend e he)
      · simp only [if_neg h]
        exact hnodes m hm
    · intro e2 he2
      exact hpend e2 (List.mem_of_mem_erase he2)
  | removeNode id =>
    refine ⟨hreg, ?_, hpend⟩
    intro n hn
    exact hnodes n (List.mem_of_mem_filter hn)
  | reset =>
    refine ⟨?_, ?_, ?_⟩
    · intro kv hkv
      cases hkv
    · intro n hn
      rcases List.mem_map.mp hn with ⟨m, _, rfl⟩
      exact ⟨fun p hp => absurd hp (List.not_mem_nil p),
        fun p hp => absurd hp (List.not_mem_nil p)⟩
    · intro e he
      cases he

/-- Claim C5: in every reachable engine state no packet in the registry
ever carries a deliveredAt time (no operation assigns it), so getStats
always reports zero delivered packets, zero average hops, zero average
latency and a zero delivery rate, regardless of how many
packet:delivered events were emitted along the way. -/
theorem getStats_no_deliveries (s : SimState) (h : SimReachable s) :
    (∀ kv ∈ s.packetRegistry, kv.2.meta.deliveredAt = none) ∧
    (getStats s).deliveredPackets = 0 ∧
    (getStats s).averageHops = 0 ∧
    (getStats s).averageLatency = 0 ∧
    (getStats s).deliveryRate = 0 := by
  have hclean : CleanState s := by
    induction h with
    | refl =>
      exact ⟨fun kv hkv => absurd hkv (List.not_mem_nil kv),
        fun n hn => absurd hn (List.not_mem_nil n),
        fun e he => absurd he (List.not_mem_nil e)⟩
    | tail hsteps hstep ih => exact simStep_clean hstep ih
  have hdel : s.packetRegistry.filter (fun kv => kv.2.meta.deliveredAt.isSome) = [] := by
    rw [List.filter_eq_nil_iff]
    intro kv hkv
    simp [hclean.1 kv hkv]
  refine ⟨hclean.1, ?_, ?_, ?_, ?_⟩
  · simp [getStats, hdel]
  · simp [getStats, hdel]
  · simp [getStats, hdel]
  · simp only [getStats, hdel]
    split
    · simp
    · rfl

/-- A small reachable state: one node added, one packet sent. -/
def witnessState : SimState :=
  { nodes := [nodeSend defaultFloodingConfig (initNode "a") "b" [1] "pkt" 0]
    packetRegistry := []
    pending := [] }

/-- Concrete instantiation of getStats_no_deliveries at a reachable state
with one sent packet: the total is 1 but every delivery statistic is 0. -/
theorem getStats_no_deliveries_witness :
    (getStats witnessState).totalPackets = 1 ∧
    (∀ kv ∈ witnessState.packetRegistry, kv.2.meta.deliveredAt = none) ∧
    (getStats witnessState).deliveredPackets = 0 ∧
    (getStats witnessState).averageHops = 0 ∧
    (getStats witnessState).averageLatency = 0 ∧
    (getStats witnessState).deliveryRate = 0 := by
  have hreach : SimReachable witnessState :=
    Relation.ReflTransGen.tail
      (Relation.ReflTransGen.single
        (SimStep.addNode initSimState "a" (fun n hn => absurd hn (List.not_mem_nil n))))
      (SimStep.send _ defaultFloodingConfig "a" "b" [1] "pkt" 0)
  have h := getStats_no_deliveries witnessState hreach
  exact ⟨rfl, h.1, h.2.1, h.2.2.1, h.2.2.2.1, h.2.2.2.2⟩

/-- UTF-8 encoding of one character, as TextEncoder emits it (Lean chars
are exactly the unicode scalar values TextEncoder encodes directly). -/
def utf8EncodeChar (c : Char) : List Nat :=
  if c.toNat < 0x80 then [c.toNat]
  else if c.toNat < 0x800 then [0xC0 + c.toNat / 64, 0x80 + c.toNat % 64]
  else if c.toNat < 0x10000 then
    [0xE0 + c.toNat / 4096, 0x80 + (c.toNat / 64) % 64, 0x80 + c.toNat % 64]
  else
    [0xF0 + c.toNat / 262144, 0x80 + (c.toNat / 4096) % 64,
      0x80 + (c.toNat / 64) % 64, 0x80 + c.toNat % 64]

/-- TextEncoder.encode: the concatenated UTF-8 bytes of the string. -/
def utf8Encode (s : String) : List Nat :=
  s.data.flatMap utf8EncodeChar

/-- Value of a UTF-8 continuation byte (high bits 10). -/
def contVal (b : Nat) : Option Nat :=
  if 0x80 ≤ b ∧ b < 0xC0 then some (b - 0x80) else none

/-- Decode a two-byte sequence headed by b0. -/
def decode2 (b0 : Nat) : List Nat → Option (Char × List Nat)
  | b1 :: rest =>
    (contVal b1).bind fun v1 => some (Char.ofNat ((b0 - 0xC0) * 64 + v1), rest)
  | [] => none

/-- Decode a three-byte sequence headed by b0 (rejecting overlong forms
and surrogates as TextDecoder does). -/
def decode3 (b0 : Nat) : List Nat → Option (Char × List Nat)
  | b1 :: b2 :: rest =>
    (contVal b1).bind fun v1 =>
      (contVal b2).bind fun v2 =>
        let n := (b0 - 0xE0) * 4096 + v1 * 64 + v2
        if n < 0x800 ∨ (0xD800 ≤ n ∧ n ≤ 0xDFFF) then none
        else some (Char.ofNat n, rest)
  | _ => none

/-- Decode a four-byte sequence headed by b0. -/
def decode4 (b0 : Nat) : List Nat → Option (Char × List Nat)
  | b1 :: b2 :: b3 :: rest =>
    (contVal b1).bind fun v1 =>
      (contVal b2).bind fun v2 =>
        (contVal b3).bind fun v3 =>
          let n := (b0 - 0xF0) * 262144 + v1 * 4096 + v2 * 64 + v3
          if n < 0x10000 ∨ 0x110000 ≤ n then none
          else some (Char.ofNat n, rest)
  | _ => none

/-- Decode one scalar value from the front of a byte list. -/
def decodeOne : List Nat → Option (Char × List Nat)
  | [] => none
  | b0 :: rest =>
    if b0 < 0x80 then some (Char.ofNat b0, rest)
    else if b0 < 0xC2 then none
    else if b0 < 0xE0 then decode2 b0 rest
    else if b0 < 0xF0 then decode3 b0 rest
    else if b0 < 0xF5 then decode4 b0 rest
    else none

/-- UTF-8 decoding loop; decodeOne always consumes at least one byte, so
fuel equal to the list length never runs out. -/
def utf8DecodeLoop : Nat → List Nat → Option (List Char)
  | _, [] => some []
  | 0, _ :: _ => none
  | fuel + 1, b0 :: rest =>
    (decodeOne (b0 :: rest)).bind fun cr =>
      (utf8DecodeLoop fuel cr.2).map fun cs => cr.1 :: cs

/-- UTF-8 decoding of a byte list into characters.  Invalid input yields
none where TextDecoder would substitute replacement characters; on the
encoder output produced by serializePacket the two behaviours agree, so
the difference is invisible to the round-trip claim. -/
def utf8DecodeChars (l : List Nat) : Option (List Char) :=
  utf8DecodeLoop l.length l

/-- TextDecoder.decode over the strict decoder. -/
def utf8Decode (l : List Nat) : Option String :=
  (utf8DecodeChars l).map fun cs => String.mk cs

theorem decodeOne_encodeChar (c : Char) (rest : List Nat) :
    decodeOne (utf8EncodeChar c ++ rest) = some (c, rest) := by
  have hv : c.toNat < 0xD800 ∨ (0xDFFF < c.toNat ∧ c.toNat < 0x110000) := c.valid
  by_cases h1 : c.toNat < 0x80
  · have henc : utf8EncodeChar c = [c.toNat] := by
      unfold utf8EncodeChar
      rw [if_pos h1]
    rw [henc, List.singleton_append, decodeOne, if_pos h1, Char.ofNat_toNat]
  · by_cases h2 : c.toNat < 0x800
    · have henc : utf8EncodeChar c = [0xC0 + c.toNat / 64, 0x80 + c.toNat % 64] := by
        unfold utf8EncodeChar
        rw [if_neg h1, if_pos h2]
      rw [henc, List.cons_append, List.singleton_append, decodeOne,
        if_neg (by omega), if_neg (by omega), if_pos (by omega), decode2,
        contVal, if_pos (by omega), Option.some_bind]
      have harg : (0xC0 + c.toNat / 64 - 0xC0) * 64 + (0x80 + c.toNat % 64 - 0x80) =
          c.toNat := by omega
      rw [harg, Char.ofNat_toNat]
    · by_cases h3 : c.toNat < 0x10000
      · have henc : utf8EncodeChar c =
            [0xE0 + c.toNat / 4096, 0x80 + (c.toNat / 64) % 64,
              0x80 + c.toNat % 64] := by
          unfold utf8EncodeChar
          rw [if_neg h1, if_neg h2, if_pos h3]
        rw [henc, List.cons_append, List.cons_append, List.singleton_append,
          decodeOne, if_neg (by omega), if_neg (by omega), if_neg (by omega),
          if_pos (by omega), decode3, contVal, if_pos (by omega),
          Option.some_bind, contVal, if_pos (by omega), Option.some_bind]
        have harg : (0xE0 + c.toNat / 4096 - 0xE0) * 4096 +
            (0x80 + c.toNat / 64 % 64 - 0x80) * 64 + (0x80 + c.toNat % 64 - 0x80) =
            c.toNat := by omega
        simp only [harg]
        rw [if_neg (by omega), Char.ofNat_toNat]
      · have henc : utf8EncodeChar c =
            [0xF0 + c.toNat / 262144, 0x80 + (c.toNat / 4096) % 64,
              0x80 + (c.toNat / 64) % 64, 0x80 + c.toNat % 64] := by
          unfold utf8EncodeChar
          rw [if_neg h1, if_neg h2, if_neg h3]
        rw [henc, List.cons_append, List.cons_append, List.cons_append,
          List.singleton_append, decodeOne, if_neg (by omega), if_neg (by omega),
          if_neg (by omega), if_neg (by omega), if_pos (by omega), decode4,
          contVal, if_pos (by omega), Option.some_bind, contVal,
          if_pos (by omega), Option.some_bind, contVal, if_pos (by omega),
          Option.some_bind]
        have harg : (0xF0 + c.toNat / 262144 - 0xF0) * 262144 +
            (0x80 + c.toNat / 4096 % 64 - 0x80) * 4096 +
            (0x80 + c.toNat / 64 % 64 - 0x80) * 64 + (0x80 + c.toNat % 64 - 0x80) =
            c.toNat := by omega
        simp only [harg]
        rw [if_neg (by omega), Char.ofNat_toNat]

theorem utf8EncodeChar_ne_nil (c : Char) : utf8EncodeChar c ≠ [] := by
  unfold utf8EncodeChar
  by_cases h1 : c.toNat < 0x80
  · rw [if_pos h1]
    exact List.cons_ne_nil _ _
  · rw [if_neg h1]
    by_cases h2 : c.toNat < 0x800
    · rw [if_pos h2]
      exact List.cons_ne_nil _ _
    · rw [if_neg h2]
      by_cases h3 : c.toNat < 0x10000
      · rw [if_pos h3]
        exact List.cons_ne_nil _ _
      · rw [if_neg h3]
        exact List.cons_ne_nil _ _

theorem utf8DecodeLoop_encode (l : List Char) :
    ∀ fuel : Nat, (l.flatMap utf8EncodeChar).length ≤ fuel →
      utf8DecodeLoop fuel (l.flatMap utf8EncodeChar) = some l := by
  induction l with
  | nil =>
    intro fuel _
    rw [List.flatMap_nil]
    cases fuel <;> rfl
  | cons c l ih =>
    intro fuel hlen
    rw [List.flatMap_cons] at hlen ⊢
    obtain ⟨b0, tl, hshape⟩ :
        ∃ b0 tl, utf8EncodeChar c ++ l.flatMap utf8EncodeChar = b0 :: tl := by
      rcases henc : utf8EncodeChar c with _ | ⟨b0, bs⟩
      · exact absurd henc (utf8EncodeChar_ne_nil c)
      · exact ⟨b0, bs ++ l.flatMap utf8EncodeChar, by rw [List.cons_append]⟩
    have hne : 1 ≤ (utf8EncodeChar c).length := by
      rcases henc : utf8EncodeChar c with _ | ⟨b0, bs⟩
      · exact absurd henc (utf8EncodeChar_ne_nil c)
      · simp
    rcases fuel with _ | fuel
    · rw [List.length_append] at hlen
      omega
    · rw [hshape, utf8DecodeLoop, ← hshape, decodeOne_encodeChar,
        Option.some_bind, ih fuel (by rw [List.length_append] at hlen; omega)]
      rfl

theorem utf8DecodeChars_flatMap2 (l : List Char) :
    utf8DecodeChars (l.flatMap utf8EncodeChar) = some l :=
  utf8DecodeLoop_encode l _ le_rfl

theorem utf8Decode_encode (s : String) : utf8Decode (utf8Encode s) = some s := by
  unfold utf8Decode utf8Encode utf8DecodeChars
  rw [utf8DecodeLoop_encode s.data _ le_rfl]
  rfl


/-- The little-endian bytes of a value, k bytes wide (the store half of
DataView.setFloat64 on the timestamp pattern and setUint32 on the payload
length). -/
def natToLE : Nat → Nat → List Nat
  | 0, _ => []
  | k + 1, n => n % 256 :: natToLE k (n / 256)

/-- Little-endian byte recomposition (the load half). -/
def leToNat : List Nat → Nat
  | [] => 0
  | b :: bs => b + 256 * leToNat bs

/-- The byte a Uint8Array stores for a JS integer (ToUint8: value modulo
256, nonnegative). -/
def byteOfInt (i : Int) : Nat :=
  (i % 256).toNat

/-- serializePacket of core/packet.ts.  The source writes the fields into
a preallocated Uint8Array at increasing offsets; the embedding is the
same byte sequence as one concatenation: 1-byte length plus UTF-8 bytes
for id, source and destination, one byte each for hopLimit and hopCount,
the 8 little-endian bytes of the float64 timestamp pattern, the 4
little-endian bytes of the uint32 payload length, then the payload. -/
def serializePacket (p : Packet) : List Nat :=
  let idBytes := utf8Encode p.header.id
  let sourceBytes := utf8Encode p.header.source
  let destinationBytes := utf8Encode p.header.destination
  [idBytes.length % 256] ++ idBytes ++
    [sourceBytes.length % 256] ++ sourceBytes ++
    [destinationBytes.length % 256] ++ destinationBytes ++
    [byteOfInt p.header.hopLimit, byteOfInt p.header.hopCount] ++
    natToLE 8 p.header.timestamp ++
    natToLE 4 p.payload.length ++
    p.payload

/-- One byte read (data at offset, advancing it). -/
def readByte : List Nat → Option (Nat × List Nat)
  | [] => none
  | b :: bs => some (b, bs)

/-- A fixed-width read; DataView.getFloat64 and getUint32 throw a
RangeError past the end of the buffer, modelled as none. -/
def readChunk (k : Nat) (l : List Nat) : Option (List Nat × List Nat) :=
  if k ≤ l.length then some (l.take k, l.drop k) else none

/-- deserializePacket of core/packet.ts: length-prefixed strings, the two
hop bytes, the float64 timestamp pattern and the uint32 payload length,
then the payload slice (slice truncates, as in the source).  Reads past
the end of the data and invalid UTF-8 yield none; on serializer output
every read succeeds, so the claim sees none of these modelling edges. -/
def deserializePacket (data : List Nat) : Option Packet := do
  let (idLength, r1) ← readByte data
  let id ← utf8Decode (r1.take idLength)
  let r2 := r1.drop idLength
  let (sourceLength, r3) ← readByte r2
  let source ← utf8Decode (r3.take sourceLength)
  let r4 := r3.drop sourceLength
  let (destinationLength, r5) ← readByte r4
  let destination ← utf8Decode (r5.take destinationLength)
  let r6 := r5.drop destinationLength
  let (hopLimit, r7) ← readByte r6
  let (hopCount, r8) ← readByte r7
  let (tsBytes, r9) ← readChunk 8 r8
  let (lenBytes, r10) ← readChunk 4 r9
  let payloadLength := leToNat lenBytes
  let payload := r10.take payloadLength
  pure
    { header :=
        { id := id
          source := source
          destination := destination
          hopLimit := (hopLimit : Int)
          hopCount := (hopCount : Int)
          timestamp := leToNat tsBytes }
      payload := payload
      meta :=
        { path := [source]
          createdAt := leToNat tsBytes
          deliveredAt := none
          forwardDelay := none } }

theorem natToLE_length (k n : Nat) : (natToLE k n).length = k := by
  induction k generalizing n with
  | zero => rfl
  | succ k ih =>
    rw [natToLE, List.length_cons, ih]

theorem leToNat_natToLE (k n : Nat) : leToNat (natToLE k n) = n % 256 ^ k := by
  induction k generalizing n with
  | zero =>
    simp [natToLE, leToNat, Nat.mod_one]
  | succ k ih =>
    rw [natToLE, leToNat, ih]
    rw [pow_succ, mul_comm (256 ^ k) 256, Nat.mod_mul]

theorem byteOfInt_small {i : Int} (h0 : 0 ≤ i) (h1 : i ≤ 255) :
    (byteOfInt i : Int) = i := by
  unfold byteOfInt
  rw [Int.emod_eq_of_lt h0 (by omega)]
  exact Int.toNat_of_nonneg h0

/-- Claim C3: for packets whose id, source and destination encode to at
most 255 UTF-8 bytes each, whose hop fields lie in 0..255, whose
timestamp pattern fits 64 bits and whose payload is shorter than 2^32
bytes, deserializePacket inverts serializePacket: the header fields and
the payload come back exactly (the metadata is rebuilt as path=[source],
createdAt=timestamp, as the source does). -/
theorem serialize_roundTrip (p : Packet)
    (hid : (utf8Encode p.header.id).length ≤ 255)
    (hsource : (utf8Encode p.header.source).length ≤ 255)
    (hdest : (utf8Encode p.header.destination).length ≤ 255)
    (hhl0 : 0 ≤ p.header.hopLimit) (hhl1 : p.header.hopLimit ≤ 255)
    (hhc0 : 0 ≤ p.header.hopCount) (hhc1 : p.header.hopCount ≤ 255)
    (hts : p.header.timestamp < 2 ^ 64)
    (hpl : p.payload.length < 2 ^ 32) :
    deserializePacket (serializePacket p) =
      some
        { header := p.header
          payload := p.payload
          meta :=
            { path := [p.header.source]
              createdAt := p.header.timestamp
              deliveredAt := none
              forwardDelay := none } } := by
  have hserEq : serializePacket p =
      (utf8Encode p.header.id).length % 256 ::
        (utf8Encode p.header.id ++
          ((utf8Encode p.header.source).length % 256 ::
            (utf8Encode p.header.source ++
              ((utf8Encode p.header.destination).length % 256 ::
                (utf8Encode p.header.destination ++
                  (byteOfInt p.header.hopLimit :: byteOfInt p.header.hopCount ::
                    (natToLE 8 p.header.timestamp ++
                      (natToLE 4 p.payload.length ++ p.payload)))))))) := by
    simp only [serializePacket, List.singleton_append, List.cons_append,
      List.append_assoc, List.nil_append]
  have hmod1 : (utf8Encode p.header.id).length % 256 =
      (utf8Encode p.header.id).length := Nat.mod_eq_of_lt (by omega)
  have hmod2 : (utf8Encode p.header.source).length % 256 =
      (utf8Encode p.header.source).length := Nat.mod_eq_of_lt (by omega)
  have hmod3 : (utf8Encode p.header.destination).length % 256 =
      (utf8Encode p.header.destination).length := Nat.mod_eq_of_lt (by omega)
  have hchunk8 : readChunk 8
      (natToLE 8 p.header.timestamp ++ (natToLE 4 p.payload.length ++ p.payload)) =
      some (natToLE 8 p.header.timestamp, natToLE 4 p.payload.length ++ p.payload) := by
    unfold readChunk
    rw [if_pos (by rw [List.length_append, natToLE_length]; omega)]
    rw [List.take_left' (natToLE_length 8 p.header.timestamp),
      List.drop_left' (natToLE_length 8 p.header.timestamp)]
  have hchunk4 : readChunk 4 (natToLE 4 p.payload.length ++ p.payload) =
      some (natToLE 4 p.payload.length, p.payload) := by
    unfold readChunk
    rw [if_pos (by rw [List.length_append, natToLE_length]; omega)]
    rw [List.take_left' (natToLE_length 4 p.payload.length),
      List.drop_left' (natToLE_length 4 p.payload.length)]
  have hts2 : leToNat (natToLE 8 p.header.timestamp) = p.header.timestamp := by
    rw [leToNat_natToLE]
    exact Nat.mod_eq_of_lt (by norm_num; omega)
  have hpl2 : leToNat (natToLE 4 p.payload.length) = p.payload.length := by
    rw [leToNat_natToLE]
    exact Nat.mod_eq_of_lt (by norm_num; omega)
  rw [hserEq, hmod1, hmod2, hmod3]
  simp only [deserializePacket, readByte, Option.bind_eq_bind, Option.some_bind,
    List.take_left, List.drop_left, utf8Decode_encode, hchunk8, hchunk4,
    hts2, hpl2, List.take_length, byteOfInt_small hhl0 hhl1,
    byteOfInt_small hhc0 hhc1, Option.pure_def]

/-- A concrete packet for instantiating the round trip. -/
def rtPacket : Packet :=
  createPacket "pkt1" "nodeA" "broadcast" [1, 2, 3] 7 42

/-- Concrete instantiation of serialize_roundTrip on a broadcast packet
with a three-byte payload. -/
theorem serialize_roundTrip_witness :
    ((utf8Encode rtPacket.header.id).length ≤ 255 ∧
      (utf8Encode rtPacket.header.source).length ≤ 255 ∧
      (utf8Encode rtPacket.header.destination).length ≤ 255 ∧
      0 ≤ rtPacket.header.hopLimit ∧ rtPacket.header.hopLimit ≤ 255 ∧
      0 ≤ rtPacket.header.hopCount ∧ rtPacket.header.hopCount ≤ 255 ∧
      rtPacket.header.timestamp < 2 ^ 64 ∧ rtPacket.payload.length < 2 ^ 32) ∧
    deserializePacket (serializePacket rtPacket) =
      some
        { header := rtPacket.header
          payload := rtPacket.payload
          meta :=
            { path := [rtPacket.header.source]
              createdAt := rtPacket.header.timestamp
              deliveredAt := none
              forwardDelay := none } } := by
  refine ⟨⟨by decide, by decide, by decide, by decide, by decide, by decide,
    by decide, by decide, by decide⟩, ?_⟩
  exact serialize_roundTrip rtPacket (by decide) (by decide) (by decide)
    (by decide) (by decide) (by decide) (by decide) (by decide) (by decide)

/-
Forwarding-mode comparison (graph-enabled engine, core/addressing.ts).

The engine transmits a packet by delivering it immediately to every node the
radio medium reports as reached, then draining node outboxes.  Which nodes are
reached is decided by RadioMedium.transmit via canReceive, computed from
positions and configuration BEFORE the per-call fading sample is drawn: fading
only perturbs the reported rssi.  The reached set is therefore a fixed
symmetric relation on node ids, identical in both modes and for every seed; it
is modelled here as an explicit edge list, and the rssi argument (ignored by
the flooding strategy) is passed as 0.

Deliveries are the packet:delivered emissions of receivePacket: one
(receiver id, packet id) pair per receive call whose destination is the
receiver or "broadcast", recorded independently of the node's duplicate check.

Sync mode (config.syncMode = true): scheduleForwardedPackets scans nodes in
insertion order, pops each outbox packet and recursively calls transmitPacket,
which itself ends in scheduleForwardedPackets.  Every such call returns only
once all outboxes are empty, and each step processes the head packet of the
first node (in insertion order) whose outbox is nonempty; syncFlush is that
loop, with fuel for termination.

Async mode (syncMode = false): each outbox packet is handed to setTimeout with
delay packet.meta.forwardDelay ?? 100.  No code path ever assigns
meta.forwardDelay (VirtualNode.receive pushes the clone without recording
decision.delay), so every timer has the same 100 ms delay and callbacks fire
in scheduling order: a FIFO queue.  Firing a timer runs transmitPacket:
immediate receives, then all outboxes are drained to the back of the queue.
-/

abbrev Edges := List (String × String)

/-- The mutable node list of the engine, in insertion order of the node map. -/
structure EngState where
  nodes : List NodeState
  deriving Repr, DecidableEq

/-- Whether the radio medium lets b hear a: the abstract symmetric link set. -/
def canReach (adj : Edges) (a b : String) : Bool :=
  adj.any fun e => (e.1 = a ∧ e.2 = b) ∨ (e.1 = b ∧ e.2 = a)

/-- RadioMedium.transmit: every other node with canReceive, in node-map order. -/
def receiversOf (adj : Edges) (st : EngState) (senderId : String) : List String :=
  (st.nodes.map fun n => n.id).filter fun i => i ≠ senderId ∧ canReach adj senderId i

def applyReceive (cfg : FloodingConfig) (st : EngState) (rid : String) (p : Packet) : EngState :=
  ⟨updateNodes st.nodes rid fun n => nodeReceive cfg n p 0⟩

/-- The packet:delivered emission of Simulation.receivePacket. -/
def emitsFor (p : Packet) (rid : String) : List (String × String) :=
  if p.header.destination = rid ∨ p.header.destination = "broadcast" then [(rid, p.header.id)] else []

def receiveAll (cfg : FloodingConfig) (st : EngState) (rids : List String) (p : Packet) : EngState :=
  rids.foldl (fun acc rid => applyReceive cfg acc rid p) st

/-- The first node (in insertion order) with a nonempty outbox, and its head packet. -/
def firstOutbox : List NodeState → Option (String × Packet)
  | [] => none
  | n :: rest =>
    match n.outbox with
    | p :: _ => some (n.id, p)
    | [] => firstOutbox rest

def popOutbox (st : EngState) (nid : String) : EngState :=
  ⟨updateNodes st.nodes nid fun n => { n with outbox := n.outbox.drop 1 }⟩

/-- The receive phase of transmitPacket: deliver p to every reached node and
record the packet:delivered emissions. -/
def deliverStep (adj : Edges) (cfg : FloodingConfig) (st : EngState)
    (senderId : String) (p : Packet) : EngState × List (String × String) :=
  let rids := receiversOf adj st senderId
  (receiveAll cfg st rids p, rids.flatMap fun rid => emitsFor p rid)

/-- Sync-mode drain loop: repeatedly transmit the head packet of the first
nonempty outbox until none remains (see the header comment). -/
def syncFlush (adj : Edges) (cfg : FloodingConfig) :
    Nat → EngState → EngState × List (String × String)
  | 0, st => (st, [])
  | fuel + 1, st =>
    match firstOutbox st.nodes with
    | none => (st, [])
    | some (nid, p) =>
      let r1 := deliverStep adj cfg (popOutbox st nid) nid p
      let r2 := syncFlush adj cfg fuel r1.1
      (r2.1, r1.2 ++ r2.2)

/-- Async-mode scheduleForwardedPackets: move every outbox packet, in node
order, to the back of the timer queue. -/
def collectOutboxes (st : EngState) : EngState × List (String × Packet) :=
  (⟨st.nodes.map fun n => { n with outbox := [] }⟩,
    st.nodes.flatMap fun n => n.outbox.map fun p => (n.id, p))

/-- Async-mode event loop: fire the oldest timer (equal delays make the timers
a FIFO queue), deliver, append the freshly scheduled forwards. -/
def asyncLoop (adj : Edges) (cfg : FloodingConfig) :
    Nat → EngState → List (String × Packet) → EngState × List (String × String)
  | 0, st, _ => (st, [])
  | _ + 1, st, [] => (st, [])
  | fuel + 1, st, (senderId, p) :: timers =>
    let r1 := deliverStep adj cfg st senderId p
    let r2 := collectOutboxes r1.1
    let r3 := asyncLoop adj cfg fuel r2.1 (timers ++ r2.2)
    (r3.1, r1.2 ++ r3.2)

def mkEngState (order : List String) : EngState := ⟨order.map initNode⟩

/-- injectPacket followed by the sync-mode run: send at src, pop the packet,
transmit it, drain.  Returns the delivery trace. -/
def injectSync (adj : Edges) (cfg : FloodingConfig) (fuel : Nat) (order : List String)
    (src dst : String) (payload : List Nat) (pid : String) : List (String × String) :=
  let st0 : EngState := ⟨updateNodes (mkEngState order).nodes src
    (fun n => nodeSend cfg n dst payload pid 0)⟩
  match firstOutbox st0.nodes with
  | some (nid, p) =>
    let r1 := deliverStep adj cfg (popOutbox st0 nid) nid p
    r1.2 ++ (syncFlush adj cfg fuel r1.1).2
  | none => []

/-- injectPacket followed by the async-mode run to quiescence. -/
def injectAsync (adj : Edges) (cfg : FloodingConfig) (fuel : Nat) (order : List String)
    (src dst : String) (payload : List Nat) (pid : String) : List (String × String) :=
  let st0 : EngState := ⟨updateNodes (mkEngState order).nodes src
    (fun n => nodeSend cfg n dst payload pid 0)⟩
  match firstOutbox st0.nodes with
  | some (nid, p) =>
    let r1 := deliverStep adj cfg (popOutbox st0 nid) nid p
    let r2 := collectOutboxes r1.1
    r1.2 ++ (asyncLoop adj cfg fuel r2.1 r2.2).2
  | none => []

/-- Six nodes, inserted in order S, A, C, B, Y, Z, with symmetric links
S-A, S-B, A-C, C-Y, B-Y, Y-Z. -/
def divAdj : Edges := [("S","A"), ("S","B"), ("A","C"), ("C","Y"), ("B","Y"), ("Y","Z")]

def divOrder : List String := ["S", "A", "C", "B", "Y", "Z"]

/-- createFloodingStrategy with defaultHopLimit 2, other options defaulted. -/
def divCfg : FloodingConfig := { defaultFloodingConfig with defaultHopLimit := 2 }

/-- C7: the two forwarding modes do NOT always produce the same delivery set.
Broadcasting from S with hop limit 2 on the graph above, the sync-mode
recursive flush pushes the packet depth-first along S-A-C, so Y first hears a
hopLimit-0 clone from C and never rebroadcasts: Z is never reached.  The
async-mode FIFO timer queue runs generation by generation, Y first hears a
hopLimit-1 clone from B and forwards it, and Z is delivered to.  Both runs
finish well within fuel 64 (all outboxes and timers are drained; any larger
fuel yields the same traces).  The theorem pins both full delivery traces and
the resulting divergence: ("Z", "pkt") is delivered in async mode only. -/
theorem syncMode_divergence :
    injectSync divAdj divCfg 64 divOrder "S" "broadcast" [1] "pkt" =
      [("A","pkt"), ("B","pkt"), ("S","pkt"), ("C","pkt"),
       ("A","pkt"), ("Y","pkt"), ("S","pkt"), ("Y","pkt")] ∧
    injectAsync divAdj divCfg 64 divOrder "S" "broadcast" [1] "pkt" =
      [("A","pkt"), ("B","pkt"), ("S","pkt"), ("C","pkt"),
       ("S","pkt"), ("Y","pkt"), ("A","pkt"), ("Y","pkt"),
       ("C","pkt"), ("B","pkt"), ("Z","pkt")] ∧
    ("Z", "pkt") ∈ injectAsync divAdj divCfg 64 divOrder "S" "broadcast" [1] "pkt" ∧
    ("Z", "pkt") ∉ injectSync divAdj divCfg 64 divOrder "S" "broadcast" [1] "pkt" := by
  refine ⟨by decide, by decide, by decide, by decide⟩
